import Mathlib

/-!
Shallow embedding of the tktext buffer (Go package tktext, file tktext.go of
this repository) in Lean 4, together with theorems settling the frozen claims
about its specification.

Text is modelled as a list of characters, where one Lean Char stands for one
Go byte (the encoding unit over which the package measures lengths).  The
buffer contents are a list of line strings (no stored line terminators), the
mark table is an association list from mark name to mark (the list order plays
the role of one particular Go map iteration order where that order matters),
and the undo and redo stacks are lists of tagged edit operations whose
endpoints are stored as index strings, exactly as in the source.

Fallible code paths (Go panics on bad indices, out-of-range slices) are
modelled with Option: none stands for a panic.
-/

/-- One Go byte / character of buffer text. -/
abbrev Str := List Char

/-- Gravity determines the behavior of a mark during insertions at its
position.  Right gravity is the default (source lines 22-29). -/
inductive Gravity where
  | Right : Gravity
  | Left : Gravity
deriving DecidableEq, Repr

/-- Position denotes a position in a text buffer (source lines 46-49).
line is 1-based, char is a 0-based offset into the line. -/
structure Position where
  line : Nat
  char : Nat
deriving DecidableEq, Repr

/-- comparePos returns the sign-carrying difference of two positions
(source lines 174-179). -/
def comparePos (p q : Position) : Int :=
  if p.line ≠ q.line then (p.line : Int) - (q.line : Int)
  else (p.char : Int) - (q.char : Int)

/-- A mark: a position plus a gravity (source lines 67-71; the redundant
name field is carried by the association-list key instead). -/
structure Mark where
  pos : Position
  gravity : Gravity
deriving DecidableEq, Repr

/-- Decimal digit test, the \d class of the index regexps. -/
def isDigit (c : Char) : Bool := '0' ≤ c && c ≤ '9'

/-- Word-character test, the \w class of the index regexps
(alphanumeric or underscore). -/
def isWordChar (c : Char) : Bool :=
  ('0' ≤ c && c ≤ '9') || ('a' ≤ c && c ≤ 'z') || ('A' ≤ c && c ≤ 'Z') || c = '_'

/-- The decimal digit character for a value below ten. -/
def digitChar : Nat → Char
  | 0 => '0' | 1 => '1' | 2 => '2' | 3 => '3' | 4 => '4'
  | 5 => '5' | 6 => '6' | 7 => '7' | 8 => '8' | _ => '9'

/-- Numeric value of a digit character. -/
def digitVal (c : Char) : Nat := c.toNat - 48

/-- Fuel-driven decimal printer (most significant digit first), the model of
fmt's %d formatting of a nonnegative int. -/
def natCharsAux : Nat → Nat → Str
  | 0, _ => []
  | fuel + 1, n =>
    if n < 10 then [digitChar n]
    else natCharsAux fuel (n / 10) ++ [digitChar (n % 10)]

/-- Decimal representation of a natural number, as fmt's %d prints it. -/
def natChars (n : Nat) : Str := natCharsAux (n + 1) n

/-- Accumulating decimal reader, the model of strconv.ParseInt restricted to
digit strings (which is where the source applies it). -/
def parseNatFrom (a : Nat) (cs : Str) : Nat :=
  cs.foldl (fun acc c => 10 * acc + digitVal c) a

/-- Value of a most-significant-first digit string. -/
def parseNat (cs : Str) : Nat := parseNatFrom 0 cs

/-- String returns the canonical index string of a Position, format
"line.char" (source lines 51-55). -/
def posToChars (p : Position) : Str := natChars p.line ++ '.' :: natChars p.char

theorem digitVal_digitChar {n : Nat} (h : n < 10) : digitVal (digitChar n) = n := by
  interval_cases n <;> decide

theorem isDigit_digitChar {n : Nat} (h : n < 10) : isDigit (digitChar n) = true := by
  interval_cases n <;> decide

theorem parseNatFrom_append (a : Nat) (xs ys : Str) :
    parseNatFrom a (xs ++ ys) = parseNatFrom (parseNatFrom a xs) ys := by
  simp [parseNatFrom, List.foldl_append]

theorem natCharsAux_spec :
    ∀ fuel n, n < fuel →
      (∀ a, parseNatFrom a (natCharsAux fuel n) =
        a * 10 ^ (natCharsAux fuel n).length + n) ∧
      (∀ c ∈ natCharsAux fuel n, isDigit c = true) ∧
      natCharsAux fuel n ≠ [] := by
  intro fuel
  induction fuel with
  | zero => intro n h; omega
  | succ fuel ih =>
    intro n h
    by_cases hn : n < 10
    · refine ⟨?_, ?_, ?_⟩
      · intro a
        simp [natCharsAux, hn, parseNatFrom, digitVal_digitChar hn]
        ring
      · intro c hc
        simp [natCharsAux, hn] at hc
        subst hc
        exact isDigit_digitChar hn
      · simp [natCharsAux, hn]
    · have hdiv : n / 10 < fuel := by omega
      obtain ⟨ihp, ihd, ihne⟩ := ih (n / 10) hdiv
      refine ⟨?_, ?_, ?_⟩
      · intro a
        have hmod : n % 10 < 10 := Nat.mod_lt _ (by norm_num)
        simp only [natCharsAux, if_neg hn]
        rw [parseNatFrom_append, ihp a]
        simp [parseNatFrom, digitVal_digitChar hmod, List.length_append,
          pow_succ]
        ring_nf
        omega
      · intro c hc
        simp only [natCharsAux, if_neg hn, List.mem_append] at hc
        rcases hc with hc | hc
        · exact ihd c hc
        · simp at hc
          subst hc
          exact isDigit_digitChar (Nat.mod_lt _ (by norm_num))
      · simp only [natCharsAux, if_neg hn]
        intro hcontra
        exact ihne (List.append_eq_nil.mp hcontra).1

/-- Round trip: reading back the decimal print of n yields n. -/
theorem parseNat_natChars (n : Nat) : parseNat (natChars n) = n := by
  have := (natCharsAux_spec (n + 1) n (by omega)).1 0
  simpa [parseNat, natChars] using this

theorem natChars_digits {n : Nat} : ∀ c ∈ natChars n, isDigit c = true :=
  (natCharsAux_spec (n + 1) n (by omega)).2.1

theorem natChars_ne_nil (n : Nat) : natChars n ≠ [] :=
  (natCharsAux_spec (n + 1) n (by omega)).2.2

/-!  The line store and the mark table. -/

/-- The core buffer state touched by the structural mutations: the ordered
line contents (the doubly linked list of line strings of the source) and the
mark table.  The association-list order of the marks stands for one concrete
Go map iteration order. -/
structure Buf where
  lines : List Str
  marks : List (Str × Mark)
deriving DecidableEq, Repr

/-- getLine returns the 1-based n-th line (source lines 123-130; the source
walks the linked list and callers guarantee the index is in range). -/
def getLine (lines : List Str) (n : Nat) : Str := lines.getD (n - 1) []

/-- The last line of the buffer, t.lines.Back() in the source. -/
def lastLine (lines : List Str) : Str := lines.getLastD []

/-- strings.Split on the line-break character: the segments of an inserted
text (always at least one segment). -/
def splitLines : Str → List Str
  | [] => [[]]
  | c :: rest =>
    match splitLines rest with
    | [] => [[c]]
    | h :: t => if c = '\n' then [] :: h :: t else (c :: h) :: t

/-- Join a segment list with line breaks; the inverse of splitLines, used to
state what text a span of the buffer holds. -/
def joinLines : List Str → Str
  | [] => []
  | [l] => l
  | l :: ls => l ++ '\n' :: joinLines ls

theorem splitLines_ne_nil (s : Str) : splitLines s ≠ [] := by
  cases s with
  | nil => simp [splitLines]
  | cons c rest =>
    simp only [splitLines]
    rcases h : splitLines rest with _ | ⟨h1, t1⟩ <;> simp
    by_cases hc : c = '\n' <;> simp [hc]

theorem joinLines_splitLines (s : Str) : joinLines (splitLines s) = s := by
  induction s with
  | nil => rfl
  | cons c rest ih =>
    simp only [splitLines]
    rcases h : splitLines rest with _ | ⟨h1, t1⟩
    · exact absurd h (splitLines_ne_nil rest)
    · rw [h] at ih
      show joinLines (if c = '\n' then [] :: h1 :: t1 else (c :: h1) :: t1) = c :: rest
      by_cases hc : c = '\n'
      · subst hc
        simp only [if_pos rfl, joinLines]
        cases t1 <;> simp_all [joinLines]
      · rw [if_neg hc]
        cases t1 <;> simp_all [joinLines]

/-- A single-line text splits into exactly one segment. -/
theorem splitLines_eq_single {s : Str} (h : '\n' ∉ s) : splitLines s = [s] := by
  induction s with
  | nil => rfl
  | cons c rest ih =>
    simp only [List.mem_cons, not_or] at h
    have hc : ¬ c = '\n' := fun hcc => h.1 hcc.symm
    simp only [splitLines, ih h.2]
    simp [hc]

/-- The text between two positions, mirroring the accumulation loops of Get
(source lines 486-528) and of the deleted-text capture in del (source lines
544-568): count is the number of line breaks crossed. -/
def getTextAux : List Str → Nat → Nat → Nat → Str
  | ls, 0, sc, ec => ((ls.headD []).take ec).drop sc
  | ls, n + 1, sc, ec => ((ls.headD []).drop sc) ++ '\n' :: getTextAux ls.tail n 0 ec

/-- The text the buffer holds between positions s and e (s ≤ e expected, as
at every call site in the source). -/
def getText (lines : List Str) (s e : Position) : Str :=
  if e.line < s.line then []
  else getTextAux (lines.drop (s.line - 1)) (e.line - s.line) s.char e.char

/-!  Insertion. -/

/-- Append a suffix onto the final segment of a list. -/
def appendLast (suf : Str) : List Str → List Str
  | [] => []
  | [a] => [a ++ suf]
  | a :: b :: rest => a :: appendLast suf (b :: rest)

/-- Net effect on the line store of inserting the split segments at a
position: the source inserts every segment after the start line and then
splices the start line's prefix onto the first segment and the start line's
suffix onto the last segment (source lines 637-642 and 660-663). -/
def spliceSegs (pre suf : Str) : List Str → List Str
  | [] => [pre ++ suf]
  | [a] => [pre ++ a ++ suf]
  | a :: b :: rest => (pre ++ a) :: appendLast suf (b :: rest)

/-- Mark adjustment performed by insert (source lines 644-658).  nSegs is the
number of split segments, lenS the length of the inserted text, lenLast the
length of the final segment.  In the multi-line branch the source adds the
signed quantity lenLast - start.char to m.char; under the branch guard
start.char ≤ m.char this equals the Nat expression m.char + lenLast -
start.char used here. -/
def insertAdjustMark (start : Position) (nSegs lenS lenLast : Nat) (m : Mark) : Mark :=
  if start.line < m.pos.line then
    { m with pos := ⟨m.pos.line + (nSegs - 1), m.pos.char⟩ }
  else if m.pos.line = start.line ∧ start.char ≤ m.pos.char then
    { m with pos := ⟨m.pos.line + (nSegs - 1),
        if m.gravity = Gravity.Right ∨ start.char < m.pos.char then
          (if nSegs = 1 then m.pos.char + lenS else m.pos.char + lenLast - start.char)
        else m.pos.char⟩ }
  else m

/-- insert's structural effect at an already-resolved position (source lines
625-663, everything up to the undo recording).  The source clamps the start
line to the last line while walking the list. -/
def insertAt (b : Buf) (start : Position) (s : Str) : Buf :=
  let effLine := min start.line b.lines.length
  let orig := getLine b.lines effLine
  let segs := splitLines s
  { lines := b.lines.take (effLine - 1) ++ spliceSegs (orig.take start.char) (orig.drop start.char) segs
      ++ b.lines.drop effLine,
    marks := b.marks.map fun kv =>
      (kv.1, insertAdjustMark start segs.length s.length (segs.getLastD []).length kv.2) }

/-!  Deletion. -/

/-- Mark adjustment performed by del (source lines 570-582).  The source uses
signed arithmetic; for the call sites that reach this code with s ≤ e the Nat
subtractions below agree with it (a mark strictly after e on e.line has
m.char > e.char ≥ e.char - s.char). -/
def delAdjustMark (s e : Position) (m : Mark) : Mark :=
  if comparePos s m.pos ≤ 0 then
    if comparePos m.pos e ≤ 0 then { m with pos := s }
    else
      { m with pos := ⟨m.pos.line - (e.line - s.line),
          if m.pos.line = e.line ∧ s.line = e.line then m.pos.char - (e.char - s.char)
          else m.pos.char⟩ }
  else m

/-- del's structural effect between two already-resolved positions (source
lines 530-582, everything up to the undo recording), returning the new buffer
and the captured deleted text.  none models the Go runtime panic of the slice
s[start.Char:end.Char] when the two positions sit on one line in reversed
order; with s.line > e.line the source loop body never runs, so the lines are
unchanged while the marks are still adjusted. -/
def delAt (b : Buf) (s e : Position) : Option (Buf × Str) :=
  if s.line = e.line ∧ e.char < s.char then none
  else
    let newLines :=
      if e.line < s.line then b.lines
      else b.lines.take (s.line - 1)
        ++ [(getLine b.lines s.line).take s.char ++ (getLine b.lines e.line).drop e.char]
        ++ b.lines.drop e.line
    some ({ lines := newLines,
            marks := b.marks.map fun kv => (kv.1, delAdjustMark s e kv.2) },
          getText b.lines s e)

/-!  Index resolution, mirroring Index (source lines 359-484) and its helper
parseLineChar (source lines 132-172).  The regexps of source lines 41-44 are
unrolled into explicit scanners; each scanner returns what the corresponding
FindStringSubmatch call produces (submatches plus total matched length), or
none when the regexp does not match. -/

/-- parseLineChar: match the line.char form at the head of the index, parse
and clamp.  Mirrors the regexp form (digits, a dot, then word characters;
both groups nonempty), the clamping for out-of-range lines, the end keyword
for the char part, and the ParseInt failure when the char group is not
numeric.  Returns the position and the matched length. -/
def parseLineChar (lines : List Str) (index : Str) : Option (Position × Nat) :=
  let d1 := index.takeWhile (isDigit ·)
  if d1 = [] then none
  else
    match index.drop d1.length with
    | '.' :: rest2 =>
      let d2 := rest2.takeWhile (isWordChar ·)
      if d2 = [] then none
      else
        let matched := d1.length + 1 + d2.length
        let line := parseNat d1
        if line < 1 then some (⟨1, 0⟩, matched)
        else if lines.length < line then
          some (⟨lines.length, (lastLine lines).length⟩, matched)
        else
          let len := (getLine lines line).length
          if d2 = ['e', 'n', 'd'] then some (⟨line, len⟩, matched)
          else if d2.all (isDigit ·) then some (⟨line, min (parseNat d2) len⟩, matched)
          else none
    | _ => none

/-- Consume one optional occurrence of a given character at the head of the
input, reporting how many characters were consumed. -/
def eatChar (c : Char) (cs : Str) : Nat × Str :=
  match cs with
  | x :: r => if x = c then (1, r) else (0, x :: r)
  | [] => (0, [])

/-- Scanner for the count-modifier regexp (an optional space, a sign, an
optional space, an optionally negated integer, an optional space, then a unit
word starting with one of c, i, l).  Returns the signed count, the unit word
and the total matched length. -/
def matchCount (cs : Str) : Option (Int × Str × Nat) :=
  let (n1, cs1) := eatChar ' ' cs
  match cs1 with
  | sign :: cs2 =>
    if sign = '+' ∨ sign = '-' then
      let (n3, cs3) := eatChar ' ' cs2
      let (n4, cs4) := eatChar '-' cs3
      let neg := n4 = 1
      let ds := cs4.takeWhile (isDigit ·)
      if ds = [] then none
      else
        let (n6, cs6) := eatChar ' ' (cs4.drop ds.length)
        match cs6 with
        | u :: cs7 =>
          if u = 'c' ∨ u = 'i' ∨ u = 'l' then
            let ws := cs7.takeWhile (isWordChar ·)
            let mag : Int := (parseNat ds : Int)
            let d1 : Int := if neg then -mag else mag
            some (if sign = '-' then -d1 else d1, u :: ws,
              n1 + 1 + n3 + n4 + ds.length + n6 + 1 + ws.length)
          else none
        | [] => none
    else none
  | [] => none

/-- Scanner for the start-or-end modifier regexp (an optional space, the
literal word line or word, then a word group starting with s or e).  Returns
whether the literal was line, the trailing group and the matched length. -/
def matchStartEnd (cs : Str) : Option (Bool × Str × Nat) :=
  let (n1, cs1) := eatChar ' ' cs
  let (isLine, cs2) :=
    match cs1 with
    | 'l' :: 'i' :: 'n' :: 'e' :: r => (some true, r)
    | 'w' :: 'o' :: 'r' :: 'd' :: r => (some false, r)
    | r => (none, r)
  match isLine with
  | none => none
  | some il =>
    match cs2 with
    | c :: cs3 =>
      if c = 's' ∨ c = 'e' then
        let ws := cs3.takeWhile (isWordChar ·)
        some (il, c :: ws, n1 + 4 + 1 + ws.length)
      else none
    | [] => none

/-- Forward character-wise motion of the chars and indices count units
(source lines 408-422): walk line by line while the remaining count
overshoots the current line, a line break counting as one character; clamp at
the end of the last line. -/
def advanceF : List Str → Str → Nat → Nat → Nat → Position
  | [], cur, line, char, delta =>
    if delta + char ≤ cur.length then ⟨line, char + delta⟩ else ⟨line, cur.length⟩
  | next :: rest, cur, line, char, delta =>
    if cur.length < delta + char then
      advanceF rest next (line + 1) 0 (delta - (cur.length - char + 1))
    else ⟨line, char + delta⟩

/-- Backward character-wise motion (source lines 423-435), fuel-driven: the
fuel tracks the line number, which strictly decreases, so fuel = line makes
the recursion exact. -/
def advanceBAux (lines : List Str) : Nat → Nat → Nat → Nat → Position
  | 0, line, char, delta =>
    if delta ≤ char then ⟨line, char - delta⟩ else ⟨line, 0⟩
  | fuel + 1, line, char, delta =>
    if char < delta then
      if 1 < line then
        advanceBAux lines fuel (line - 1) (getLine lines (line - 1)).length (delta - char - 1)
      else ⟨line, 0⟩
    else ⟨line, char - delta⟩

def advanceB (lines : List Str) (line char delta : Nat) : Position :=
  advanceBAux lines line line char delta

/-- The lines count unit (source lines 436-446): shift the line, clamp it
into range, then clamp the char into the new line. -/
def advanceLines (lines : List Str) (p : Position) (delta : Int) : Position :=
  let rawLine : Int := (p.line : Int) + delta
  let newLine : Nat :=
    if rawLine < 1 then 1
    else if (lines.length : Int) < rawLine then lines.length
    else rawLine.toNat
  let len := (getLine lines newLine).length
  ⟨newLine, if len ≤ p.char then len else p.char⟩

/-- wordstart scanning (source lines 463-467): step left over word
characters. -/
def wordStartScan (l : Str) : Nat → Nat
  | 0 => 0
  | char + 1 => if isWordChar (l.getD char ' ') then wordStartScan l char else char + 1

/-- wordend scanning (source lines 468-472), fuel-driven walk to the right
over word characters. -/
def wordEndAux (l : Str) : Nat → Nat → Nat
  | 0, char => char
  | fuel + 1, char =>
    if char < l.length ∧ isWordChar (l.getD char ' ') then wordEndAux l fuel (char + 1)
    else char

def wordEndScan (l : Str) (char : Nat) : Nat := wordEndAux l (l.length + 1) char

/-- The mark base of Index (source lines 377-387): iterate over the mark
table, and on each entry whose name both is a head of the remaining input and
is longer than the best match so far, take its position and cut the name off
the input.  The cut happens inside the loop, so the outcome depends on the
iteration order, which for the Go map is arbitrary; the association-list
order stands for one such iteration order. -/
def markBase (marks : List (Str × Mark)) (index : Str) : Option Position × Nat × Str :=
  marks.foldl
    (fun acc kv =>
      if kv.1.isPrefixOf acc.2.2 ∧ acc.2.1 < kv.1.length then
        (some kv.2.pos, kv.1.length, acc.2.2.drop kv.1.length)
      else acc)
    (none, 0, index)

/-- One pass of the modifier loop plus the recursion over the rest of the
index (source lines 393-481), fuel-driven; every successful match consumes at
least one character, so fuel = length + 1 is exact.  none models the panics
on an unknown modifier or count unit. -/
def resolveMods (lines : List Str) : Nat → Position → Str → Option Position
  | _, pos, [] => some pos
  | 0, _, _ :: _ => none
  | fuel + 1, pos, index@(_ :: _) =>
    match matchCount index with
    | some (delta, unit, n) =>
      if unit.isPrefixOf ("chars".toList) ∨ unit.isPrefixOf ("indices".toList) then
        let pos2 :=
          if 0 ≤ delta then
            advanceF (lines.drop pos.line) (getLine lines pos.line) pos.line pos.char delta.toNat
          else advanceB lines pos.line pos.char (-delta).toNat
        resolveMods lines fuel pos2 (index.drop n)
      else if unit.isPrefixOf ("lines".toList) then
        resolveMods lines fuel (advanceLines lines pos delta) (index.drop n)
      else none
    | none =>
      match matchStartEnd index with
      | some (isLine, grp, n) =>
        if isLine then
          if grp.isPrefixOf ("start".toList) then
            resolveMods lines fuel ⟨pos.line, 0⟩ (index.drop n)
          else if grp.isPrefixOf ("end".toList) then
            resolveMods lines fuel ⟨pos.line, (getLine lines pos.line).length⟩ (index.drop n)
          else none
        else
          if grp.isPrefixOf ("start".toList) then
            resolveMods lines fuel ⟨pos.line, wordStartScan (getLine lines pos.line) pos.char⟩
              (index.drop n)
          else if grp.isPrefixOf ("end".toList) then
            resolveMods lines fuel ⟨pos.line, wordEndScan (getLine lines pos.line) pos.char⟩
              (index.drop n)
          else none
      | none => none

/-- Index parses a string index against the buffer and returns the resolved
position (source lines 359-484); none models the panic on a bad index. -/
def indexResolve (b : Buf) (index : Str) : Option Position :=
  let base : Option (Position × Str) :=
    match parseLineChar b.lines index with
    | some (pos, len) => some (pos, index.drop len)
    | none =>
      if ("end".toList).isPrefixOf index then
        some (⟨b.lines.length, (lastLine b.lines).length⟩, index.drop 3)
      else
        match markBase b.marks index with
        | (some pos, _, rest) => some (pos, rest)
        | (none, _, _) => none
  match base with
  | none => none
  | some (pos, rest) => resolveMods b.lines (rest.length + 1) pos rest

/-!  The edit log and the full buffer state. -/

/-- A tagged undo-log entry: insertOp, deleteOp or separator (source lines
57-65).  Endpoints are stored as index strings. -/
inductive EditOp where
  | ins (sp ep : Str) (s : Str)
  | del (sp ep : Str) (s : Str)
  | sep
deriving DecidableEq, Repr

/-- The full TkText state relevant to the claims: buffer content and marks,
both history stacks (front of list = top of stack) and the undo-enabled flag
(source lines 88-102; display-only fields are outside the modelled core). -/
structure TkText where
  buf : Buf
  undoStack : List EditOp
  redoStack : List EditOp
  undoEnabled : Bool
deriving DecidableEq, Repr

/-- New returns an initialized and empty buffer (source lines 104-121). -/
def TkText.mk0 : TkText := ⟨⟨[[]], []⟩, [], [], true⟩

/-- Resolve-then-insert on the core buffer, the recording-free part of insert
as exercised during undo and redo. -/
def bufInsert (b : Buf) (index : Str) (s : Str) : Option Buf :=
  (indexResolve b index).map fun start => insertAt b start s

/-- Resolve-then-delete on the core buffer, the recording-free part of del as
exercised during undo and redo. -/
def bufDel (b : Buf) (i1 i2 : Str) : Option Buf := do
  let s ← indexResolve b i1
  let e ← indexResolve b i2
  let r ← delAt b s e
  pure r.1

/-- The index-string suffix " +nc" the source formats for undo bookkeeping
(fmt.Sprintf of source lines 597, 601, 670, 683). -/
def plusChars (n : Nat) : Str := ' ' :: '+' :: (natChars n ++ ['c'])

/-- insert (source lines 625-696): resolve, splice, adjust marks, and when
recording is on, push an insertOp whose end index is resolved from the
mutated buffer, coalescing with a textually adjacent insertOp on top of the
undo stack. -/
def TkText.insert (t : TkText) (index : Str) (s : Str) (undo : Bool) : Option TkText := do
  let start ← indexResolve t.buf index
  let buf1 := insertAt t.buf start s
  if undo && t.undoEnabled then
    let sp := posToChars start
    let end1 ← indexResolve buf1 (sp ++ plusChars s.length)
    let ep := posToChars end1
    match t.undoStack with
    | .ins vsp vep vs :: rest =>
      if vep = sp then
        pure { t with buf := buf1, undoStack := .ins vsp ep (vs ++ s) :: rest }
      else if vsp = sp then do
        let end2 ← indexResolve buf1 (index ++ plusChars (s ++ vs).length)
        pure { t with buf := buf1, undoStack := .ins sp (posToChars end2) (s ++ vs) :: rest }
      else pure { t with buf := buf1, undoStack := .ins sp ep s :: t.undoStack }
    | _ => pure { t with buf := buf1, undoStack := .ins sp ep s :: t.undoStack }
  else pure { t with buf := buf1 }

/-- del (source lines 530-612): resolve, remove the covered text, adjust
marks, and when recording is on, push a deleteOp holding the removed text,
coalescing with a deleteOp on top of the undo stack that starts where this
delete starts or ends. -/
def TkText.del (t : TkText) (i1 i2 : Str) (undo : Bool) : Option TkText := do
  let s ← indexResolve t.buf i1
  let e ← indexResolve t.buf i2
  let (buf1, captured) ← delAt t.buf s e
  if undo && t.undoEnabled then
    let sp := posToChars s
    let ep := posToChars e
    match t.undoStack with
    | .del vsp _vep vs :: rest =>
      if vsp = sp then
        pure { t with buf := buf1
                      undoStack := .del sp (ep ++ plusChars vs.length) (vs ++ captured) :: rest }
      else if vsp = ep then
        pure { t with buf := buf1
                      undoStack := .del sp (ep ++ plusChars vs.length) (captured ++ vs) :: rest }
      else pure { t with buf := buf1, undoStack := .del sp ep captured :: t.undoStack }
    | _ => pure { t with buf := buf1, undoStack := .del sp ep captured :: t.undoStack }
  else pure { t with buf := buf1 }

/-- Delete deletes the text from index1 to index2 if index1 is before index2,
recording for undo and clearing the redo stack; otherwise nothing happens at
all (source lines 614-623; the Compare call still resolves both indices). -/
def TkText.Delete (t : TkText) (i1 i2 : Str) : Option TkText := do
  let p1 ← indexResolve t.buf i1
  let p2 ← indexResolve t.buf i2
  if comparePos p1 p2 < 0 then
    let t1 ← t.del i1 i2 true
    pure { t1 with redoStack := [] }
  else pure t

/-- Insert inserts text at an index when the text is nonempty, recording for
undo and clearing the redo stack (source lines 698-706). -/
def TkText.Insert (t : TkText) (index : Str) (s : Str) : Option TkText :=
  if s ≠ [] then do
    let t1 ← t.insert index s true
    pure { t1 with redoStack := [] }
  else pure t

/-- MarkSet sets a mark with the given name at the given index; an existing
mark of that name is overwritten, always with Right gravity (source lines
808-815). -/
def TkText.MarkSet (t : TkText) (name index : Str) : Option TkText := do
  let pos ← indexResolve t.buf index
  let m : Mark := ⟨pos, Gravity.Right⟩
  let marks :=
    if t.buf.marks.any (fun kv => kv.1 = name) then
      t.buf.marks.map fun kv => if kv.1 = name then (name, m) else kv
    else t.buf.marks ++ [(name, m)]
  pure { t with buf := { t.buf with marks := marks } }

/-- MarkGetGravity (source lines 717-727): the gravity of a set mark, or none
for the error return when the mark does not exist. -/
def TkText.MarkGetGravity (t : TkText) (name : Str) : Option Gravity :=
  (t.buf.marks.find? (fun kv => kv.1 = name)).map fun kv => kv.2.gravity

/-- MarkSetGravity (source lines 729-740): set the gravity of an existing
mark, or return none for the error when the mark does not exist. -/
def TkText.MarkSetGravity (t : TkText) (name : Str) (g : Gravity) : Option TkText :=
  if t.buf.marks.any (fun kv => kv.1 = name) then
    some { t with buf := { t.buf with
      marks := t.buf.marks.map fun kv => if kv.1 = name then (kv.1, ⟨kv.2.pos, g⟩) else kv } }
  else none

/-- The undo loop (source lines 866-896): pop entries off the undo stack,
applying each one's inverse and moving it to the redo stack, until a
separator is met after at least one entry was moved or the stack empties.
The counter i counts moved entries, separators included.  Returns the final
core buffer, the two stacks and the counter. -/
def editUndoAux : List EditOp → List EditOp → Buf → Nat →
    Option (Buf × List EditOp × List EditOp × Nat)
  | [], redo, b, i => some (b, [], redo, i)
  | op :: rest, redo, b, i =>
    match op with
    | .sep =>
      if i ≠ 0 then some (b, op :: rest, redo, i)
      else editUndoAux rest (op :: redo) b (i + 1)
    | .ins sp ep _ => do
      let b1 ← bufDel b sp ep
      editUndoAux rest (op :: redo) b1 (i + 1)
    | .del sp _ s => do
      let b1 ← bufInsert b sp s
      editUndoAux rest (op :: redo) b1 (i + 1)

/-- EditUndo (source lines 861-896).  Returns the new state and the boolean
result i > 0; none models a panic while replaying an entry. -/
def TkText.EditUndo (t : TkText) : Option (TkText × Bool) :=
  if !t.undoEnabled then some (t, false)
  else
    match editUndoAux t.undoStack t.redoStack t.buf 0 with
    | some (b, u, r, i) =>
      some ({ t with buf := b, undoStack := u, redoStack := r }, decide (0 < i))
    | none => none

/-- The redo loop (source lines 903-935): like the undo loop but replaying
the original operations from the redo stack back onto the undo stack; the
separate flag records whether an insertOp or deleteOp was actually
replayed. -/
def editRedoAux : List EditOp → List EditOp → Buf → Nat → Bool →
    Option (Buf × List EditOp × List EditOp × Bool)
  | [], undo, b, _, redone => some (b, undo, [], redone)
  | op :: rest, undo, b, i, redone =>
    match op with
    | .sep =>
      if i ≠ 0 then some (b, undo, op :: rest, redone)
      else editRedoAux rest (op :: undo) b (i + 1) redone
    | .ins sp _ s => do
      let b1 ← bufInsert b sp s
      editRedoAux rest (op :: undo) b1 (i + 1) true
    | .del sp ep _ => do
      let b1 ← bufDel b sp ep
      editRedoAux rest (op :: undo) b1 (i + 1) true

/-- EditRedo (source lines 898-935).  Returns the new state and whether a
change was redone; none models a panic while replaying an entry. -/
def TkText.EditRedo (t : TkText) : Option (TkText × Bool) :=
  if !t.undoEnabled then some (t, false)
  else
    match editRedoAux t.redoStack t.undoStack t.buf 0 false with
    | some (b, u, r, redone) =>
      some ({ t with buf := b, undoStack := u, redoStack := r }, redone)
    | none => none

/-- EditSeparator pushes a separator unless the stack is empty or a separator
is already on top (source lines 937-952). -/
def TkText.EditSeparator (t : TkText) : TkText :=
  match t.undoStack with
  | [] => t
  | .sep :: _ => t
  | _ => { t with undoStack := .sep :: t.undoStack }

/-- EditReset clears both history stacks (source lines 954-960). -/
def TkText.EditReset (t : TkText) : TkText :=
  { t with undoStack := [], redoStack := [] }

/-- A position valid in the current buffer: an existing line and a char
offset within that line. -/
def ValidPos (lines : List Str) (p : Position) : Prop :=
  1 ≤ p.line ∧ p.line ≤ lines.length ∧ p.char ≤ (getLine lines p.line).length

instance (lines : List Str) (p : Position) : Decidable (ValidPos lines p) := by
  unfold ValidPos; infer_instance

/-!  General-purpose lemmas about position comparison, scanning and list
surgery, shared by the claim proofs. -/

theorem comparePos_le_zero_iff {p q : Position} :
    comparePos p q ≤ 0 ↔ (p.line < q.line ∨ (p.line = q.line ∧ p.char ≤ q.char)) := by
  unfold comparePos
  split_ifs with h <;> constructor <;> intro hx <;> omega

theorem comparePos_lt_zero_iff {p q : Position} :
    comparePos p q < 0 ↔ (p.line < q.line ∨ (p.line = q.line ∧ p.char < q.char)) := by
  unfold comparePos
  split_ifs with h <;> constructor <;> intro hx <;> omega

theorem takeWhile_append_of_forall {p : Char → Bool} :
    ∀ (xs : Str), (∀ c ∈ xs, p c = true) → ∀ (y : Char) (ys : Str), p y = false →
      (xs ++ y :: ys).takeWhile p = xs := by
  intro xs
  induction xs with
  | nil => intro _ y ys hy; simp [List.takeWhile, hy]
  | cons x xs ih =>
    intro h y ys hy
    have hx : p x = true := h x (by simp)
    simp only [List.cons_append, List.takeWhile, hx]
    exact congrArg (x :: ·) (ih (fun c hc => h c (by simp [hc])) y ys hy)

theorem takeWhile_of_forall {p : Char → Bool} :
    ∀ (xs : Str), (∀ c ∈ xs, p c = true) → xs.takeWhile p = xs := by
  intro xs
  induction xs with
  | nil => simp
  | cons x xs ih =>
    intro h
    have hx : p x = true := h x (by simp)
    simp only [List.takeWhile, hx]
    exact congrArg (x :: ·) (ih (fun c hc => h c (by simp [hc])))

theorem isWordChar_of_isDigit {c : Char} (h : isDigit c = true) : isWordChar c = true := by
  simp only [isDigit, Bool.and_eq_true] at h
  simp [isWordChar, h.1, h.2]

theorem natChars_ne_end (n : Nat) : natChars n ≠ ['e', 'n', 'd'] := by
  intro h
  have h2 : isDigit 'e' = true := by
    have h3 := natChars_digits (n := n) 'e'
    rw [h] at h3
    exact h3 (by simp)
  exact absurd h2 (by decide)

/-- Decompose a list at a known prefix length. -/
theorem drop_append_cons {α : Type} (xs : List α) (ys : List α) :
    (xs ++ ys).drop xs.length = ys := by
  simp

theorem getD_append_middle {α : Type} (A : List α) (x : α) (C : List α) (d : α) :
    (A ++ x :: C).getD A.length d = x := by
  simp [List.getD, List.getElem?_append_right (Nat.le_refl A.length)]

theorem take_append_of_le {α : Type} (A B : List α) :
    (A ++ B).take A.length = A := by
  simp

/-- Putting a list back together around its n-th element. -/
theorem take_getD_drop {α : Type} (l : List α) (n : Nat) (d : α) (h : n < l.length) :
    l.take n ++ [l.getD n d] ++ l.drop (n + 1) = l := by
  induction l generalizing n with
  | nil => simp at h
  | cons x xs ih =>
    cases n with
    | zero => simp [List.getD]
    | succ n =>
      simp only [List.length_cons, Nat.succ_lt_succ_iff] at h
      simp only [List.take_succ_cons, List.getD_cons_succ, List.drop_succ_cons,
        List.cons_append]
      exact congrArg (x :: ·) (ih n h)

/-!  Claim C10: MarkSet on an existing mark resets its gravity to Right. -/

theorem find?_replace (ms : List (Str × Mark)) (name : Str) (m : Mark)
    (h : ms.any (fun kv => kv.1 = name) = true) :
    (ms.map fun kv => if kv.1 = name then (name, m) else kv).find?
      (fun kv => kv.1 = name) = some (name, m) := by
  induction ms with
  | nil => simp at h
  | cons kv rest ih =>
    by_cases hk : kv.1 = name
    · simp [hk]
    · have h2 : rest.any (fun kv => kv.1 = name) = true := by
        rw [List.any_cons] at h
        rwa [decide_eq_false hk, Bool.false_or] at h
      simp [hk, ih h2]

theorem any_map_setGravity (ms : List (Str × Mark)) (name n : Str) (g : Gravity) :
    ((ms.map fun kv => if kv.1 = name then (kv.1, ⟨kv.2.pos, g⟩) else kv).any
      (fun kv => kv.1 = n)) = ms.any (fun kv => kv.1 = n) := by
  induction ms with
  | nil => simp
  | cons kv rest ih =>
    by_cases hk : kv.1 = name <;> simp [hk, ih]

/-- C10: MarkSet with the name of an already-set mark updates its position
and unconditionally resets its gravity to Right; in particular a mark whose
gravity was set to Left via MarkSetGravity has Right gravity again after a
MarkSet on the same name. -/
theorem C10_markset_resets_gravity (t : TkText) (name index : Str) (t1 t2 : TkText)
    (pos : Position)
    (hsg : t.MarkSetGravity name Gravity.Left = some t1)
    (hres : indexResolve t1.buf index = some pos)
    (hms : t1.MarkSet name index = some t2) :
    t2.buf.marks.find? (fun kv => kv.1 = name) = some (name, ⟨pos, Gravity.Right⟩) ∧
    t2.MarkGetGravity name = some Gravity.Right := by
  unfold TkText.MarkSetGravity at hsg
  by_cases hany : t.buf.marks.any (fun kv => kv.1 = name) = true
  · rw [if_pos hany] at hsg
    have ht1 : t1.buf.marks =
        t.buf.marks.map fun kv => if kv.1 = name then (kv.1, ⟨kv.2.pos, Gravity.Left⟩) else kv := by
      rw [← Option.some_inj.mp hsg]
    have hany1 : t1.buf.marks.any (fun kv => kv.1 = name) = true := by
      rw [ht1, any_map_setGravity]; exact hany
    unfold TkText.MarkSet at hms
    rw [hres] at hms
    simp only [Option.bind_eq_bind, Option.some_bind, if_pos hany1] at hms
    have ht2 : t2.buf.marks =
        t1.buf.marks.map fun kv =>
          if kv.1 = name then (name, ⟨pos, Gravity.Right⟩) else kv := by
      rw [← Option.some_inj.mp hms]
    have hfind := find?_replace t1.buf.marks name ⟨pos, Gravity.Right⟩ hany1
    rw [← ht2] at hfind
    refine ⟨hfind, ?_⟩
    unfold TkText.MarkGetGravity
    rw [hfind]
    rfl
  · rw [if_neg hany] at hsg
    exact absurd hsg (by simp)

/-!  Resolution of canonical line.char index strings, the central lemma behind
the round-trip claim and the undo-entry replay. -/

/-- What parseLineChar computes for a parsed (line, char) pair: the clamping
of source lines 148-168. -/
def clampP (lines : List Str) (p : Position) : Position :=
  if p.line < 1 then ⟨1, 0⟩
  else if lines.length < p.line then ⟨lines.length, (lastLine lines).length⟩
  else ⟨p.line, min p.char (getLine lines p.line).length⟩

theorem parseLineChar_canon (lines : List Str) (L C : Nat) :
    parseLineChar lines (natChars L ++ '.' :: natChars C) =
      some (clampP lines ⟨L, C⟩, (natChars L).length + 1 + (natChars C).length) := by
  have hd1 : (natChars L ++ '.' :: natChars C).takeWhile (fun c => isDigit c) = natChars L :=
    takeWhile_append_of_forall (natChars L) (fun c hc => natChars_digits c hc) '.'
      (natChars C) (by decide)
  have hd2 : (natChars C).takeWhile (fun c => isWordChar c) = natChars C :=
    takeWhile_of_forall (natChars C)
      (fun c hc => isWordChar_of_isDigit (natChars_digits c hc))
  have hdrop : (natChars L ++ '.' :: natChars C).drop (natChars L).length =
      '.' :: natChars C := drop_append_cons _ _
  unfold parseLineChar
  rw [hd1]
  rw [if_neg (natChars_ne_nil L)]
  rw [hdrop]
  simp only []
  rw [hd2]
  rw [if_neg (natChars_ne_nil C)]
  rw [parseNat_natChars]
  unfold clampP
  by_cases hL1 : L < 1
  · rw [if_pos hL1, if_pos hL1]
  · rw [if_neg hL1, if_neg hL1]
    by_cases hL2 : lines.length < L
    · rw [if_pos hL2, if_pos hL2]
    · rw [if_neg hL2, if_neg hL2]
      rw [if_neg (natChars_ne_end C)]
      rw [if_pos (by rw [List.all_eq_true]; exact fun c hc => natChars_digits c hc)]
      rw [parseNat_natChars]

/-- Resolving the canonical string of any position yields its clamped value
(the buffer must be nonempty, as every reachable buffer is). -/
theorem indexResolve_posToChars (b : Buf) (p : Position) :
    indexResolve b (posToChars p) = some (clampP b.lines p) := by
  unfold indexResolve posToChars
  rw [parseLineChar_canon b.lines p.line p.char]
  simp only []
  have hlen : (natChars p.line ++ '.' :: natChars p.char).drop
      ((natChars p.line).length + 1 + (natChars p.char).length) = [] := by
    rw [List.drop_eq_nil_iff]
    simp
    omega
  rw [hlen]
  rfl

/-- On a valid position the clamping is the identity. -/
theorem clampP_valid {lines : List Str} {p : Position} (h : ValidPos lines p) :
    clampP lines p = p := by
  obtain ⟨h1, h2, h3⟩ := h
  unfold clampP
  rw [if_neg (by omega), if_neg (by omega)]
  simp only [min_eq_left h3]

/-- C7: every position valid in the current buffer round-trips through its
canonical string form: Index applied to String of the position returns the
position unchanged. -/
theorem C7_index_roundtrip (b : Buf) (p : Position) (h : ValidPos b.lines p) :
    indexResolve b (posToChars p) = some p := by
  rw [indexResolve_posToChars, clampP_valid h]

/-- Witness for C7 at a concrete buffer and position. -/
theorem C7_index_roundtrip_witness :
    indexResolve ⟨[['a', 'b']], []⟩ (posToChars ⟨1, 1⟩) = some ⟨1, 1⟩ :=
  C7_index_roundtrip ⟨[['a', 'b']], []⟩ ⟨1, 1⟩ (by decide)

/-!  Claim C9: Delete with reversed or equal endpoints is a complete no-op. -/

theorem resolve_one_two (b : Buf) :
    indexResolve b ['1', '.', '2'] = some (clampP b.lines ⟨1, 2⟩) := by
  have h : (['1', '.', '2'] : Str) = posToChars ⟨1, 2⟩ := by decide
  rw [h, indexResolve_posToChars]

/-- C9: for any two index strings resolving in reversed or equal order,
Delete changes nothing at all: content, marks and both history stacks are
untouched; in particular Delete from 1.2 to 1.2 is a no-op on every buffer. -/
theorem C9_delete_noop :
    (∀ (t : TkText) (i1 i2 : Str) (p1 p2 : Position),
      indexResolve t.buf i1 = some p1 → indexResolve t.buf i2 = some p2 →
      0 ≤ comparePos p1 p2 → t.Delete i1 i2 = some t) ∧
    (∀ t : TkText, t.buf.lines ≠ [] →
      t.Delete ['1', '.', '2'] ['1', '.', '2'] = some t) := by
  constructor
  · intro t i1 i2 p1 p2 h1 h2 hle
    unfold TkText.Delete
    rw [h1, h2]
    simp only [Option.bind_eq_bind, Option.some_bind]
    rw [if_neg (by omega)]
    rfl
  · intro t hb
    unfold TkText.Delete
    rw [resolve_one_two t.buf]
    simp only [Option.bind_eq_bind, Option.some_bind]
    rw [if_neg (by simp [comparePos])]
    rfl

/-- Witness for C9 on the fresh buffer. -/
theorem C9_delete_noop_witness :
    TkText.mk0.Delete ['1', '.', '2'] ['1', '.', '2'] = some TkText.mk0 :=
  C9_delete_noop.2 TkText.mk0 (by decide)

/-!  Claim C4: mark-name resolution is claimed to pick the longest registered
mark name deterministically; the source loop truncates the input inside the
iteration, so the outcome depends on the map iteration order. -/

/-- C4: the same mark table in two iteration orders resolves the same index
differently: with the shorter name visited first the index is truncated
before the longer name is tested, leaving an unparsable remainder (a panic);
with the longer name first it resolves to that mark.  This contradicts the
deterministic longest-match rule the code comments state. -/
theorem C4_mark_lookup_order_dependent :
    indexResolve ⟨[['x', 'y']],
        [(['a'], ⟨⟨1, 0⟩, Gravity.Right⟩), (['a', 'b'], ⟨⟨1, 1⟩, Gravity.Right⟩)]⟩
      ['a', 'b'] = none ∧
    indexResolve ⟨[['x', 'y']],
        [(['a', 'b'], ⟨⟨1, 1⟩, Gravity.Right⟩), (['a'], ⟨⟨1, 0⟩, Gravity.Right⟩)]⟩
      ['a', 'b'] = some ⟨1, 1⟩ ∧
    List.Perm
      [(['a'], (⟨⟨1, 0⟩, Gravity.Right⟩ : Mark)), (['a', 'b'], ⟨⟨1, 1⟩, Gravity.Right⟩)]
      [(['a', 'b'], ⟨⟨1, 1⟩, Gravity.Right⟩), (['a'], ⟨⟨1, 0⟩, Gravity.Right⟩)] :=
  ⟨by decide, by decide, List.Perm.swap _ _ _⟩

/-!  Claim C5 counterexample: EditUndo on a stack holding only a separator
returns true although no insert or delete entry is applied and the buffer is
unchanged. -/

/-- C5 counterexample: with the undo stack holding a single separator,
EditUndo moves the separator, leaves the buffer untouched, and still returns
true, contradicting the claim that true is returned only when an Insert or
Delete entry was applied in inverse. -/
theorem C5_counterexample :
    TkText.EditUndo ⟨⟨[[]], []⟩, [EditOp.sep], [], true⟩ =
      some (⟨⟨[[]], []⟩, [], [EditOp.sep], true⟩, true) := by
  decide

/-!  Claim C3 counterexample: after a multi-line insert, undo then redo does
not restore the post-insert mark positions, because del's mark adjustment
drops the char shift for marks sitting after the end of a multi-line
deletion. -/

/-- C3 counterexample: buffer "ab" with mark m at 1.2 (Right gravity);
inserting a two-segment text at 1.1 puts m at 2.1; EditUndo moves m to 1.1
(not back to 1.2), and EditRedo then leaves m at 2.0, different from its
post-insert position 2.1 although the content is restored. -/
theorem C3_counterexample :
    (do
      let t1 ← (⟨⟨[['a', 'b']], [(['m'], ⟨⟨1, 2⟩, Gravity.Right⟩)]⟩, [], [], true⟩ :
        TkText).Insert ['1', '.', '1'] ['x', '\n']
      let r1 ← t1.EditUndo
      let r2 ← r1.1.EditRedo
      pure (t1.buf.marks, r2.1.buf.lines, r2.1.buf.marks)) =
      some ([(['m'], ⟨⟨2, 1⟩, Gravity.Right⟩)], [['a', 'x'], ['b']],
        [(['m'], ⟨⟨2, 0⟩, Gravity.Right⟩)]) ∧
    [(['m'], (⟨⟨2, 1⟩, Gravity.Right⟩ : Mark))] ≠ [(['m'], ⟨⟨2, 0⟩, Gravity.Right⟩)] := by
  exact ⟨by decide, by decide⟩

/-- Witness for C10 at a concrete buffer with one mark. -/
theorem C10_markset_resets_gravity_witness :
    (⟨⟨[[]], [(['m'], ⟨⟨1, 0⟩, Gravity.Right⟩)]⟩, [], [], true⟩ : TkText).buf.marks.find?
        (fun kv => kv.1 = ['m']) = some (['m'], ⟨⟨1, 0⟩, Gravity.Right⟩) ∧
      (⟨⟨[[]], [(['m'], ⟨⟨1, 0⟩, Gravity.Right⟩)]⟩, [], [], true⟩ : TkText).MarkGetGravity ['m'] =
        some Gravity.Right :=
  C10_markset_resets_gravity
    ⟨⟨[[]], [(['m'], ⟨⟨1, 0⟩, Gravity.Right⟩)]⟩, [], [], true⟩ ['m'] ['1', '.', '0']
    ⟨⟨[[]], [(['m'], ⟨⟨1, 0⟩, Gravity.Left⟩)]⟩, [], [], true⟩
    ⟨⟨[[]], [(['m'], ⟨⟨1, 0⟩, Gravity.Right⟩)]⟩, [], [], true⟩
    ⟨1, 0⟩ (by decide) (by decide) (by decide)

/-!  Claim C1: mark adjustment under insertion, and the end of the inserted
text. -/

/-- The position just after the text inserted at P (end of inserted text):
for a single-segment insert the char advances by the text length; for a
multi-segment insert the position is at the end of the last segment. -/
def endOfInsert (P : Position) (s : Str) : Position :=
  if (splitLines s).length = 1 then ⟨P.line, P.char + s.length⟩
  else ⟨P.line + ((splitLines s).length - 1), ((splitLines s).getLastD []).length⟩

theorem splitLines_len_one {s : Str} (h : (splitLines s).length = 1) :
    splitLines s = [s] := by
  rcases hs : splitLines s with _ | ⟨a, t⟩
  · exact absurd hs (splitLines_ne_nil s)
  · rw [hs] at h
    simp only [List.length_cons, Nat.succ_eq_add_one, Nat.add_left_eq_self,
      List.length_eq_zero] at h
    subst h
    have := joinLines_splitLines s
    rw [hs] at this
    simp only [joinLines] at this
    rw [this]

theorem appendLast_eq_splice (suf : Str) :
    ∀ (l : List Str), l ≠ [] → appendLast suf l = spliceSegs [] suf l := by
  intro l
  match l with
  | [] => intro h; exact absurd rfl h
  | [a] => intro _; simp [appendLast, spliceSegs]
  | a :: b :: rest => intro _; simp [appendLast, spliceSegs]

theorem getLastD_cons_cons {α : Type} (a b : α) (l : List α) (d : α) :
    (a :: b :: l).getLastD d = (b :: l).getLastD d := by
  simp [List.getLastD]

/-- Reading back the span covered by inserted segments yields the joined
segments: the text between the insertion point (at char = the length of the
line prefix) and the end of the spliced segments is their join. -/
theorem getTextAux_splice :
    ∀ (segs : List Str) (pre suf : Str) (rest : List Str), segs ≠ [] →
      getTextAux (spliceSegs pre suf segs ++ rest) (segs.length - 1) pre.length
        (if segs.length = 1 then pre.length + (segs.headD []).length
         else (segs.getLastD []).length) = joinLines segs := by
  intro segs
  induction segs with
  | nil => intro _ _ _ h; exact absurd rfl h
  | cons a segs ih =>
    intro pre suf rest _
    cases segs with
    | nil =>
      simp only [spliceSegs, List.length_cons, List.length_nil, List.headD_cons,
        if_pos rfl, joinLines, Nat.sub_self]
      show ((((pre ++ a ++ suf) :: rest).headD []).take (pre.length + a.length)).drop
        pre.length = a
      simp only [List.headD_cons]
      rw [show pre ++ a ++ suf = (pre ++ a) ++ suf by simp]
      rw [show pre.length + a.length = (pre ++ a).length by simp]
      rw [List.take_left, List.drop_left]
    | cons b tl =>
      have hlen : (a :: b :: tl).length - 1 = tl.length + 1 := by simp
      have hne2 : (a :: b :: tl).length ≠ 1 := by simp
      rw [if_neg hne2, hlen]
      simp only [spliceSegs, List.cons_append]
      show ((((pre ++ a) :: (appendLast suf (b :: tl) ++ rest)).headD []).drop pre.length)
          ++ '\n' :: getTextAux (((pre ++ a) :: (appendLast suf (b :: tl) ++ rest)).tail)
            tl.length 0 ((a :: b :: tl).getLastD []).length = joinLines (a :: b :: tl)
      simp only [List.headD_cons, List.tail_cons, List.drop_left]
      rw [appendLast_eq_splice suf (b :: tl) (by simp)]
      have ihv := ih [] suf rest (by simp)
      have hec : (if (b :: tl).length = 1 then (([] : Str)).length + ((b :: tl).headD []).length
          else ((b :: tl).getLastD []).length) = ((b :: tl).getLastD []).length := by
        cases tl with
        | nil => simp [List.getLastD]
        | cons c tl2 => simp
      rw [hec] at ihv
      have hcnt : (b :: tl).length - 1 = tl.length := by simp
      rw [hcnt] at ihv
      have hzero : (([] : Str)).length = 0 := rfl
      rw [hzero] at ihv
      rw [getLastD_cons_cons]
      rw [ihv]
      rfl

theorem drop_append_of_length {α : Type} {A : List α} {n : Nat} (h : A.length = n)
    (B : List α) : (A ++ B).drop n = B := by
  rw [← h, List.drop_left]

/-- The text the buffer holds between the insertion point and endOfInsert,
after the insertion, is exactly the inserted text. -/
theorem getText_insertAt (b : Buf) (P : Position) (s : Str) (h : ValidPos b.lines P) :
    getText (insertAt b P s).lines P (endOfInsert P s) = s := by
  obtain ⟨h1, h2, h3⟩ := h
  have heff : min P.line b.lines.length = P.line := min_eq_left h2
  have hpre : ((getLine b.lines P.line).take P.char).length = P.char := by
    rw [List.length_take]; omega
  have hlines1 : (insertAt b P s).lines =
      b.lines.take (P.line - 1)
        ++ (spliceSegs ((getLine b.lines P.line).take P.char)
            ((getLine b.lines P.line).drop P.char) (splitLines s)
          ++ b.lines.drop P.line) := by
    unfold insertAt
    rw [heff]
    simp [List.append_assoc]
  have htk : (b.lines.take (P.line - 1)).length = P.line - 1 := by
    rw [List.length_take]; omega
  have hdrop : ((insertAt b P s).lines).drop (P.line - 1) =
      spliceSegs ((getLine b.lines P.line).take P.char)
          ((getLine b.lines P.line).drop P.char) (splitLines s)
        ++ b.lines.drop P.line := by
    rw [hlines1, drop_append_of_length htk]
  by_cases hk : (splitLines s).length = 1
  · have hs1 : splitLines s = [s] := splitLines_len_one hk
    have he : endOfInsert P s = ⟨P.line, P.char + s.length⟩ := by
      unfold endOfInsert; rw [if_pos hk]
    rw [he]
    unfold getText
    rw [if_neg (by simp)]
    simp only [Nat.sub_self]
    rw [hdrop, hs1]
    have hx := getTextAux_splice [s] ((getLine b.lines P.line).take P.char)
      ((getLine b.lines P.line).drop P.char) (b.lines.drop P.line) (by simp)
    simp only [List.length_cons, List.length_nil, List.headD_cons, joinLines,
      if_pos rfl] at hx
    rw [hpre] at hx
    exact hx
  · have he : endOfInsert P s =
        ⟨P.line + ((splitLines s).length - 1), ((splitLines s).getLastD []).length⟩ := by
      unfold endOfInsert; rw [if_neg hk]
    rw [he]
    unfold getText
    rw [if_neg (by simp)]
    simp only [Nat.add_sub_cancel_left]
    rw [hdrop]
    have hx := getTextAux_splice (splitLines s) ((getLine b.lines P.line).take P.char)
      ((getLine b.lines P.line).drop P.char) (b.lines.drop P.line) (splitLines_ne_nil s)
    rw [if_neg hk] at hx
    rw [hpre, joinLines_splitLines] at hx
    exact hx

theorem insertAdjustMark_gravity (start : Position) (a c d : Nat) (m : Mark) :
    (insertAdjustMark start a c d m).gravity = m.gravity := by
  unfold insertAdjustMark
  split_ifs <;> rfl

/-- C1: mark adjustment under Insert at a resolved position P.  For every
mark: on a later line, the line shifts by the segment count minus one; on
P.line strictly before P.char, unchanged; on P.line at or past P.char, the
line shifts by the segment count minus one and the char shifts to account for
the inserted content exactly when the gravity is Right or the mark is
strictly past P.char, so a Left-gravity mark exactly at the insertion point
keeps its char (and is entirely unchanged for a single-segment insert), while
a Right-gravity mark exactly at the insertion point ends at the end of the
inserted text, the position after which the buffer holds exactly the inserted
text. -/
theorem C1_insert_mark_adjustment (b : Buf) (P : Position) (s : Str) (i : Nat)
    (nm : Str) (m : Mark) (_hs : s ≠ [])
    (hm : b.marks[i]? = some (nm, m)) :
    ∃ m2 : Mark,
      (insertAt b P s).marks[i]? = some (nm, m2) ∧
      m2.gravity = m.gravity ∧
      (P.line < m.pos.line →
        m2.pos = ⟨m.pos.line + ((splitLines s).length - 1), m.pos.char⟩) ∧
      (m.pos.line = P.line → m.pos.char < P.char → m2 = m) ∧
      (m.pos.line = P.line → P.char ≤ m.pos.char →
        (m2.pos.line = m.pos.line + ((splitLines s).length - 1) ∧
        ((m.gravity = Gravity.Right ∨ P.char < m.pos.char) →
          m2.pos.char =
            (if (splitLines s).length = 1 then m.pos.char + s.length
             else m.pos.char + ((splitLines s).getLastD []).length - P.char)) ∧
        (m.gravity = Gravity.Left → m.pos.char = P.char → m2.pos.char = m.pos.char ∧
          ((splitLines s).length = 1 → m2 = m)))) ∧
      (m.pos.line < P.line → m2 = m) ∧
      (m.gravity = Gravity.Right → m.pos = P →
        m2.pos = endOfInsert P s ∧
        (ValidPos b.lines P → getText (insertAt b P s).lines P m2.pos = s)) := by
  refine ⟨insertAdjustMark P (splitLines s).length s.length
    ((splitLines s).getLastD []).length m, ?_, insertAdjustMark_gravity _ _ _ _ _, ?_, ?_, ?_, ?_, ?_⟩
  · show (b.marks.map _)[i]? = _
    rw [List.getElem?_map, hm]
    rfl
  · intro hl
    unfold insertAdjustMark
    rw [if_pos hl]
  · intro hline hchar
    unfold insertAdjustMark
    rw [if_neg (by omega), if_neg (by omega)]
  · intro hline hchar
    unfold insertAdjustMark
    rw [if_neg (by omega), if_pos ⟨hline, hchar⟩]
    refine ⟨rfl, ?_, ?_⟩
    · intro hor
      rw [if_pos hor]
    · intro hg heq
      constructor
      · rw [if_neg (by rw [hg]; simp; omega)]
      · intro h1
        rw [if_neg (by rw [hg]; simp; omega)]
        have : m.pos.line + ((splitLines s).length - 1) = m.pos.line := by omega
        rw [this]
  · intro hl
    unfold insertAdjustMark
    rw [if_neg (by omega), if_neg (by omega)]
  · intro hg hp
    have hline : m.pos.line = P.line := by rw [hp]
    have hchar : m.pos.char = P.char := by rw [hp]
    have hpos : insertAdjustMark P (splitLines s).length s.length
        ((splitLines s).getLastD []).length m = ⟨endOfInsert P s, m.gravity⟩ := by
      unfold insertAdjustMark endOfInsert
      rw [if_neg (by omega), if_pos ⟨hline, by omega⟩, if_pos (Or.inl hg)]
      by_cases hk : (splitLines s).length = 1
      · rw [if_pos hk, if_pos hk]
        have e1 : m.pos.line + ((splitLines s).length - 1) = P.line := by omega
        have e2 : m.pos.char + s.length = P.char + s.length := by omega
        rw [e1, e2]
      · rw [if_neg hk, if_neg hk]
        have e1 : m.pos.line + ((splitLines s).length - 1) =
            P.line + ((splitLines s).length - 1) := by omega
        have e2 : m.pos.char + ((splitLines s).getLastD []).length - P.char =
            ((splitLines s).getLastD []).length := by omega
        rw [e1, e2]
    constructor
    · rw [hpos]
    · intro hv
      rw [hpos]
      exact getText_insertAt b P s hv

/-- Witness for C1: one Right-gravity mark at the insertion point of a
one-character insert. -/
theorem C1_insert_mark_adjustment_witness :
    ∃ m2 : Mark,
      (insertAt ⟨[[]], [([], ⟨⟨1, 0⟩, Gravity.Right⟩)]⟩ ⟨1, 0⟩ ['x']).marks[0]? =
        some ([], m2) ∧
      m2.gravity = (⟨⟨1, 0⟩, Gravity.Right⟩ : Mark).gravity ∧
      ((⟨1, 0⟩ : Position).line < (⟨⟨1, 0⟩, Gravity.Right⟩ : Mark).pos.line →
        m2.pos = ⟨(⟨⟨1, 0⟩, Gravity.Right⟩ : Mark).pos.line + ((splitLines ['x']).length - 1),
          (⟨⟨1, 0⟩, Gravity.Right⟩ : Mark).pos.char⟩) ∧
      ((⟨⟨1, 0⟩, Gravity.Right⟩ : Mark).pos.line = (⟨1, 0⟩ : Position).line →
        (⟨⟨1, 0⟩, Gravity.Right⟩ : Mark).pos.char < (⟨1, 0⟩ : Position).char →
        m2 = ⟨⟨1, 0⟩, Gravity.Right⟩) ∧
      ((⟨⟨1, 0⟩, Gravity.Right⟩ : Mark).pos.line = (⟨1, 0⟩ : Position).line →
        (⟨1, 0⟩ : Position).char ≤ (⟨⟨1, 0⟩, Gravity.Right⟩ : Mark).pos.char →
        (m2.pos.line = (⟨⟨1, 0⟩, Gravity.Right⟩ : Mark).pos.line
            + ((splitLines ['x']).length - 1) ∧
        (((⟨⟨1, 0⟩, Gravity.Right⟩ : Mark).gravity = Gravity.Right ∨
            (⟨1, 0⟩ : Position).char < (⟨⟨1, 0⟩, Gravity.Right⟩ : Mark).pos.char) →
          m2.pos.char =
            (if (splitLines ['x']).length = 1 then
              (⟨⟨1, 0⟩, Gravity.Right⟩ : Mark).pos.char + (['x'] : Str).length
             else (⟨⟨1, 0⟩, Gravity.Right⟩ : Mark).pos.char
               + ((splitLines ['x']).getLastD []).length - (⟨1, 0⟩ : Position).char)) ∧
        ((⟨⟨1, 0⟩, Gravity.Right⟩ : Mark).gravity = Gravity.Left →
          (⟨⟨1, 0⟩, Gravity.Right⟩ : Mark).pos.char = (⟨1, 0⟩ : Position).char →
          m2.pos.char = (⟨⟨1, 0⟩, Gravity.Right⟩ : Mark).pos.char ∧
          ((splitLines ['x']).length = 1 → m2 = ⟨⟨1, 0⟩, Gravity.Right⟩)))) ∧
      ((⟨⟨1, 0⟩, Gravity.Right⟩ : Mark).pos.line < (⟨1, 0⟩ : Position).line →
        m2 = ⟨⟨1, 0⟩, Gravity.Right⟩) ∧
      ((⟨⟨1, 0⟩, Gravity.Right⟩ : Mark).gravity = Gravity.Right →
        (⟨⟨1, 0⟩, Gravity.Right⟩ : Mark).pos = ⟨1, 0⟩ →
        m2.pos = endOfInsert ⟨1, 0⟩ ['x'] ∧
        (ValidPos [[]] ⟨1, 0⟩ →
          getText (insertAt ⟨[[]], [([], ⟨⟨1, 0⟩, Gravity.Right⟩)]⟩ ⟨1, 0⟩ ['x']).lines
            ⟨1, 0⟩ m2.pos = ['x'])) :=
  C1_insert_mark_adjustment ⟨[[]], [([], ⟨⟨1, 0⟩, Gravity.Right⟩)]⟩ ⟨1, 0⟩ ['x'] 0 []
    ⟨⟨1, 0⟩, Gravity.Right⟩ (by decide) (by decide)

/-!  Claim C2: mark adjustment under deletion. -/

theorem comparePos_swap (p q : Position) : comparePos p q = -comparePos q p := by
  unfold comparePos
  split_ifs <;> omega

theorem delAdjustMark_gravity (s e : Position) (m : Mark) :
    (delAdjustMark s e m).gravity = m.gravity := by
  unfold delAdjustMark
  split_ifs <;> rfl

/-- C2: mark adjustment under del between resolved positions S < E.  A mark
in [S, E] (in particular anywhere in [S, E)) collapses to S; a mark strictly
after E shifts its line back by the number of deleted line breaks and shifts
its char back by the deleted char span exactly when it sat on E.line and the
deletion was single-line; a mark before S is untouched. -/
theorem C2_delete_mark_adjustment (b : Buf) (S E : Position) (r : Buf × Str)
    (hlt : comparePos S E < 0) (hr : delAt b S E = some r)
    (i : Nat) (nm : Str) (m : Mark) (hm : b.marks[i]? = some (nm, m)) :
    ∃ m2 : Mark, r.1.marks[i]? = some (nm, m2) ∧
      m2.gravity = m.gravity ∧
      (comparePos S m.pos ≤ 0 → comparePos m.pos E ≤ 0 → m2.pos = S) ∧
      (comparePos S m.pos ≤ 0 → comparePos m.pos E < 0 → m2.pos = S) ∧
      (comparePos E m.pos < 0 →
        m2.pos.line = m.pos.line - (E.line - S.line) ∧
        (m.pos.line = E.line ∧ S.line = E.line →
          m2.pos.char = m.pos.char - (E.char - S.char)) ∧
        (¬(m.pos.line = E.line ∧ S.line = E.line) → m2.pos.char = m.pos.char)) ∧
      (comparePos m.pos S < 0 → m2 = m) := by
  have hguard : ¬(S.line = E.line ∧ E.char < S.char) := by
    rw [comparePos_lt_zero_iff] at hlt
    omega
  have hrm : r.1.marks = b.marks.map fun kv => (kv.1, delAdjustMark S E kv.2) := by
    unfold delAt at hr
    rw [if_neg hguard] at hr
    rw [← Option.some_inj.mp hr]
  refine ⟨delAdjustMark S E m, ?_, delAdjustMark_gravity _ _ _, ?_, ?_, ?_, ?_⟩
  · rw [hrm, List.getElem?_map, hm]
    rfl
  · intro h1 h2
    unfold delAdjustMark
    rw [if_pos h1, if_pos h2]
  · intro h1 h2
    unfold delAdjustMark
    rw [if_pos h1, if_pos (le_of_lt h2)]
  · intro hEm
    have h1 : comparePos S m.pos ≤ 0 := by
      rw [comparePos_lt_zero_iff] at hlt hEm
      rw [comparePos_le_zero_iff]
      omega
    have h2 : ¬ comparePos m.pos E ≤ 0 := by
      rw [comparePos_lt_zero_iff] at hEm
      rw [comparePos_le_zero_iff]
      omega
    unfold delAdjustMark
    rw [if_pos h1, if_neg h2]
    refine ⟨rfl, ?_, ?_⟩
    · intro hc
      rw [if_pos hc]
    · intro hc
      rw [if_neg hc]
  · intro hmS
    have h1 : ¬ comparePos S m.pos ≤ 0 := by
      rw [comparePos_lt_zero_iff] at hmS
      rw [comparePos_le_zero_iff]
      omega
    unfold delAdjustMark
    rw [if_neg h1]

/-- Witness for C2: one mark inside the deleted span of a one-line delete. -/
theorem C2_delete_mark_adjustment_witness :
    ∃ m2 : Mark,
      ((⟨⟨[[]], [([], ⟨⟨1, 0⟩, Gravity.Right⟩)]⟩, ['a', 'b']⟩ :
        Buf × Str)).1.marks[0]? = some ([], m2) ∧
      m2.gravity = (⟨⟨1, 1⟩, Gravity.Right⟩ : Mark).gravity ∧
      (comparePos ⟨1, 0⟩ (⟨⟨1, 1⟩, Gravity.Right⟩ : Mark).pos ≤ 0 →
        comparePos (⟨⟨1, 1⟩, Gravity.Right⟩ : Mark).pos ⟨1, 2⟩ ≤ 0 → m2.pos = ⟨1, 0⟩) ∧
      (comparePos ⟨1, 0⟩ (⟨⟨1, 1⟩, Gravity.Right⟩ : Mark).pos ≤ 0 →
        comparePos (⟨⟨1, 1⟩, Gravity.Right⟩ : Mark).pos ⟨1, 2⟩ < 0 → m2.pos = ⟨1, 0⟩) ∧
      (comparePos ⟨1, 2⟩ (⟨⟨1, 1⟩, Gravity.Right⟩ : Mark).pos < 0 →
        m2.pos.line = (⟨⟨1, 1⟩, Gravity.Right⟩ : Mark).pos.line
          - ((⟨1, 2⟩ : Position).line - (⟨1, 0⟩ : Position).line) ∧
        ((⟨⟨1, 1⟩, Gravity.Right⟩ : Mark).pos.line = (⟨1, 2⟩ : Position).line ∧
            (⟨1, 0⟩ : Position).line = (⟨1, 2⟩ : Position).line →
          m2.pos.char = (⟨⟨1, 1⟩, Gravity.Right⟩ : Mark).pos.char
            - ((⟨1, 2⟩ : Position).char - (⟨1, 0⟩ : Position).char)) ∧
        (¬((⟨⟨1, 1⟩, Gravity.Right⟩ : Mark).pos.line = (⟨1, 2⟩ : Position).line ∧
            (⟨1, 0⟩ : Position).line = (⟨1, 2⟩ : Position).line) →
          m2.pos.char = (⟨⟨1, 1⟩, Gravity.Right⟩ : Mark).pos.char)) ∧
      (comparePos (⟨⟨1, 1⟩, Gravity.Right⟩ : Mark).pos ⟨1, 0⟩ < 0 →
        m2 = ⟨⟨1, 1⟩, Gravity.Right⟩) :=
  C2_delete_mark_adjustment ⟨[['a', 'b']], [([], ⟨⟨1, 1⟩, Gravity.Right⟩)]⟩ ⟨1, 0⟩ ⟨1, 2⟩
    ⟨⟨[[]], [([], ⟨⟨1, 0⟩, Gravity.Right⟩)]⟩, ['a', 'b']⟩ (by decide) (by decide)
    0 [] ⟨⟨1, 1⟩, Gravity.Right⟩ (by decide)

/-!  Claim C8: insert then delete of the inserted span restores the content. -/

theorem take_append_of_length {α : Type} {A : List α} {n : Nat} (h : A.length = n)
    (B : List α) : (A ++ B).take n = A := by
  rw [← h, List.take_left]

theorem getD_append_of_length {α : Type} {A : List α} {n : Nat} (h : A.length = n)
    (x : α) (C : List α) (d : α) : (A ++ x :: C).getD n d = x := by
  rw [← h]
  simp [List.getD, List.getElem?_append_right (Nat.le_refl A.length)]

/-- Deleting the just-inserted span of a line-break-free text undoes the
splice exactly: the lines revert to the old buffer, the marks get the del
adjustment applied on top of the insert adjustment, and the captured text is
the inserted text. -/
theorem insertAt_delAt_single (b : Buf) (P : Position) (s : Str)
    (hv : ValidPos b.lines P) (hnl : '\n' ∉ s) :
    delAt (insertAt b P s) P ⟨P.line, P.char + s.length⟩ =
      some (⟨b.lines, (insertAt b P s).marks.map
        (fun kv => (kv.1, delAdjustMark P ⟨P.line, P.char + s.length⟩ kv.2))⟩, s) := by
  obtain ⟨h1, h2, h3⟩ := hv
  have hs1 : splitLines s = [s] := splitLines_eq_single hnl
  have heff : min P.line b.lines.length = P.line := min_eq_left h2
  set orig := getLine b.lines P.line with horig
  set pre := orig.take P.char with hpre
  set suf := orig.drop P.char with hsuf
  have hplen : pre.length = P.char := by
    rw [hpre, List.length_take]
    omega
  have hlines1 : (insertAt b P s).lines =
      b.lines.take (P.line - 1) ++ ((pre ++ s ++ suf) :: b.lines.drop P.line) := by
    unfold insertAt
    rw [heff, hs1]
    simp only [spliceSegs, List.append_assoc, List.singleton_append]
  have htk : (b.lines.take (P.line - 1)).length = P.line - 1 := by
    rw [List.length_take]
    omega
  have hmid : getLine (insertAt b P s).lines P.line = pre ++ s ++ suf := by
    unfold getLine
    rw [hlines1, getD_append_of_length htk]
  have htake1 : (insertAt b P s).lines.take (P.line - 1) = b.lines.take (P.line - 1) := by
    rw [hlines1, take_append_of_length htk]
  have hdrop1 : (insertAt b P s).lines.drop P.line = b.lines.drop P.line := by
    rw [hlines1]
    rw [show b.lines.take (P.line - 1) ++ ((pre ++ s ++ suf) :: b.lines.drop P.line) =
      (b.lines.take (P.line - 1) ++ [pre ++ s ++ suf]) ++ b.lines.drop P.line by simp]
    apply drop_append_of_length
    rw [List.length_append, htk]
    simp
    omega
  have hmidtake : (pre ++ s ++ suf).take P.char = pre := by
    rw [show pre ++ s ++ suf = pre ++ (s ++ suf) by simp]
    exact take_append_of_length hplen _
  have hmiddrop : (pre ++ s ++ suf).drop (P.char + s.length) = suf := by
    rw [show pre ++ s ++ suf = (pre ++ s) ++ suf by simp]
    apply drop_append_of_length
    rw [List.length_append, hplen]
  have hsur : b.lines.take (P.line - 1) ++ [orig] ++ b.lines.drop P.line = b.lines := by
    have hn : P.line - 1 < b.lines.length := by omega
    have hput := take_getD_drop b.lines (P.line - 1) [] hn
    rw [show P.line - 1 + 1 = P.line by omega] at hput
    exact hput
  unfold delAt
  dsimp only
  rw [if_neg (by omega)]
  rw [if_neg (by omega)]
  have hcap : getText (insertAt b P s).lines P ⟨P.line, P.char + s.length⟩ = s := by
    have he : endOfInsert P s = ⟨P.line, P.char + s.length⟩ := by
      unfold endOfInsert
      rw [hs1]
      simp
    rw [← he]
    exact getText_insertAt b P s ⟨h1, h2, h3⟩
  rw [hcap]
  have hlines2 : (insertAt b P s).lines.take (P.line - 1)
      ++ [(getLine (insertAt b P s).lines P.line).take P.char
        ++ (getLine (insertAt b P s).lines P.line).drop (P.char + s.length)]
      ++ (insertAt b P s).lines.drop P.line = b.lines := by
    rw [htake1, hdrop1, hmid, hmidtake, hmiddrop]
    rw [hpre, hsuf, List.take_append_drop]
    exact hsur
  rw [hlines2]

/-!  Resolution of a canonical index string followed by the " +nc" modifier
the undo bookkeeping appends. -/

theorem parseLineChar_canon_gen (lines : List Str) (L C : Nat) (r : Str)
    (hd2 : (natChars C ++ r).takeWhile (fun c => isWordChar c) = natChars C) :
    parseLineChar lines (natChars L ++ '.' :: (natChars C ++ r)) =
      some (clampP lines ⟨L, C⟩, (natChars L).length + 1 + (natChars C).length) := by
  have hd1 : (natChars L ++ '.' :: (natChars C ++ r)).takeWhile (fun c => isDigit c) =
      natChars L :=
    takeWhile_append_of_forall _ (fun c hc => natChars_digits c hc) '.' _ (by decide)
  have hdrop : (natChars L ++ '.' :: (natChars C ++ r)).drop (natChars L).length =
      '.' :: (natChars C ++ r) := drop_append_cons _ _
  unfold parseLineChar
  rw [hd1, if_neg (natChars_ne_nil L), hdrop]
  simp only []
  rw [hd2, if_neg (natChars_ne_nil C), parseNat_natChars]
  unfold clampP
  by_cases hL1 : L < 1
  · rw [if_pos hL1, if_pos hL1]
  · rw [if_neg hL1, if_neg hL1]
    by_cases hL2 : lines.length < L
    · rw [if_pos hL2, if_pos hL2]
    · rw [if_neg hL2, if_neg hL2]
      rw [if_neg (natChars_ne_end C)]
      rw [if_pos (by rw [List.all_eq_true]; exact fun c hc => natChars_digits c hc)]
      rw [parseNat_natChars]


theorem matchCount_plus_digits (d : Char) (ds' : Str)
    (hdig : ∀ c ∈ d :: ds', isDigit c = true) :
    matchCount (' ' :: '+' :: ((d :: ds') ++ ['c'])) =
      some ((parseNat (d :: ds') : Int), ['c'], (d :: ds').length + 3) := by
  have hd : isDigit d = true := hdig d (by simp)
  have h1 : ¬ d = ' ' := by intro h; rw [h] at hd; exact absurd hd (by decide)
  have h2 : ¬ d = '-' := by intro h; rw [h] at hd; exact absurd hd (by decide)
  have e0 : eatChar ' ' (' ' :: '+' :: ((d :: ds') ++ ['c'])) =
      (1, '+' :: ((d :: ds') ++ ['c'])) := by simp [eatChar]
  have e1 : eatChar ' ' ((d :: ds') ++ ['c']) = (0, (d :: ds') ++ ['c']) := by
    simp [eatChar, h1]
  have e2 : eatChar '-' ((d :: ds') ++ ['c']) = (0, (d :: ds') ++ ['c']) := by
    simp [eatChar, h2]
  have htk : ((d :: ds') ++ ['c']).takeWhile (fun x => isDigit x) = d :: ds' :=
    takeWhile_append_of_forall _ hdig 'c' [] (by decide)
  have hdr : ((d :: ds') ++ ['c']).drop ((d :: ds')).length = ['c'] := drop_append_cons _ _
  have e3 : eatChar ' ' ['c'] = (0, ['c']) := by decide
  simp only [matchCount, e0]
  rw [if_pos (Or.inl trivial)]
  rw [e1]
  rw [e2]
  rw [htk]
  rw [if_neg (by simp)]
  rw [hdr, e3]
  dsimp only
  rw [if_pos (by decide : ('c' : Char) = 'c' ∨ 'c' = 'i' ∨ 'c' = 'l')]
  rw [if_neg (by decide : ¬ ('+' : Char) = '-')]
  rw [if_neg (by decide : ¬ (0 : Nat) = 1)]
  simp only [List.takeWhile, List.length_nil]
  norm_num
  omega

theorem matchCount_plusChars (n : Nat) :
    matchCount (plusChars n) = some ((n : Int), ['c'], (natChars n).length + 3) := by
  rcases h : natChars n with _ | ⟨d, ds'⟩
  · exact absurd h (natChars_ne_nil n)
  · have hm := matchCount_plus_digits d ds' (by rw [← h]; exact fun c hc => natChars_digits c hc)
    rw [show plusChars n = ' ' :: '+' :: ((d :: ds') ++ ['c']) from by rw [plusChars, h]]
    rw [hm, ← h, parseNat_natChars]

theorem resolveMods_nil (lines : List Str) (fuel : Nat) (pos : Position) :
    resolveMods lines fuel pos [] = some pos := by
  cases fuel <;> rfl

/-- Character-wise advance from a position, as the chars and indices count
modifiers perform it. -/
def advChars (lines : List Str) (p : Position) (n : Nat) : Position :=
  advanceF (lines.drop p.line) (getLine lines p.line) p.line p.char n

theorem resolveMods_plusChars (lines : List Str) (fuel : Nat) (pos : Position) (n : Nat) :
    resolveMods lines (fuel + 1) pos (plusChars n) = some (advChars lines pos n) := by
  have hdr : (plusChars n).drop ((natChars n).length + 3) = [] := by
    rw [List.drop_eq_nil_iff]
    simp [plusChars]
  rw [show plusChars n = ' ' :: ('+' :: (natChars n ++ ['c'])) from rfl]
  simp only [resolveMods]
  rw [show (' ' :: ('+' :: (natChars n ++ ['c']))) = plusChars n from rfl]
  rw [matchCount_plusChars n]
  simp only []
  rw [if_pos (Or.inl (by decide))]
  rw [if_pos (by omega : (0 : Int) ≤ (n : Int))]
  rw [hdr]
  rw [show ((n : Int)).toNat = n from Int.toNat_natCast n]
  rw [resolveMods_nil]
  rfl

/-- Resolving a canonical position string with the " +nc" suffix the undo
bookkeeping appends: clamp the position, then advance n characters. -/
theorem resolve_canon_plus (b : Buf) (p : Position) (n : Nat) :
    indexResolve b (posToChars p ++ plusChars n) =
      some (advChars b.lines (clampP b.lines p) n) := by
  have hshape : posToChars p ++ plusChars n =
      natChars p.line ++ '.' :: (natChars p.char ++ plusChars n) := by
    simp [posToChars]
  have hd2 : (natChars p.char ++ plusChars n).takeWhile (fun c => isWordChar c) =
      natChars p.char := by
    rw [show plusChars n = ' ' :: ('+' :: (natChars n ++ ['c'])) from rfl]
    exact takeWhile_append_of_forall _
      (fun c hc => isWordChar_of_isDigit (natChars_digits c hc)) ' ' _ (by decide)
  have hplc := parseLineChar_canon_gen b.lines p.line p.char (plusChars n) hd2
  have hlen : (posToChars p).length =
      (natChars p.line).length + 1 + (natChars p.char).length := by
    simp [posToChars]
    omega
  have hdrop : (posToChars p ++ plusChars n).drop
      ((natChars p.line).length + 1 + (natChars p.char).length) = plusChars n :=
    drop_append_of_length hlen _
  rw [hshape] at hdrop
  unfold indexResolve
  rw [hshape, hplc]
  simp only []
  rw [hdrop]
  exact resolveMods_plusChars b.lines (plusChars n).length (clampP b.lines ⟨p.line, p.char⟩) n

/-!  Single-line insertion facts and the public-operation layer. -/

theorem advanceF_within {rest : List Str} {cur : Str} {line char delta : Nat}
    (h : delta + char ≤ cur.length) :
    advanceF rest cur line char delta = ⟨line, char + delta⟩ := by
  cases rest with
  | nil =>
    simp only [advanceF]
    rw [if_pos h]
  | cons next rest2 =>
    simp only [advanceF]
    rw [if_neg (by omega)]

theorem insertAt_lines_single (b : Buf) (P : Position) (s : Str)
    (hv : ValidPos b.lines P) (hnl : '\n' ∉ s) :
    (insertAt b P s).lines = b.lines.take (P.line - 1)
      ++ (((getLine b.lines P.line).take P.char ++ s ++ (getLine b.lines P.line).drop P.char)
        :: b.lines.drop P.line) := by
  obtain ⟨h1, h2, h3⟩ := hv
  unfold insertAt
  rw [min_eq_left h2, splitLines_eq_single hnl]
  simp only [spliceSegs, List.append_assoc, List.singleton_append]

theorem insertAt_length_single (b : Buf) (P : Position) (s : Str)
    (hv : ValidPos b.lines P) (hnl : '\n' ∉ s) :
    (insertAt b P s).lines.length = b.lines.length := by
  obtain ⟨h1, h2, h3⟩ := hv
  rw [insertAt_lines_single b P s ⟨h1, h2, h3⟩ hnl]
  simp only [List.length_append, List.length_cons, List.length_take, List.length_drop]
  omega

theorem insertAt_getLine_single (b : Buf) (P : Position) (s : Str)
    (hv : ValidPos b.lines P) (hnl : '\n' ∉ s) :
    getLine (insertAt b P s).lines P.line =
      (getLine b.lines P.line).take P.char ++ s ++ (getLine b.lines P.line).drop P.char := by
  obtain ⟨h1, h2, h3⟩ := hv
  have htk : (b.lines.take (P.line - 1)).length = P.line - 1 := by
    rw [List.length_take]
    omega
  unfold getLine
  rw [insertAt_lines_single b P s ⟨h1, h2, h3⟩ hnl, getD_append_of_length htk]
  rfl

theorem valid_insertAt_single (b : Buf) (P : Position) (s : Str)
    (hv : ValidPos b.lines P) (hnl : '\n' ∉ s) :
    ValidPos (insertAt b P s).lines P ∧
    ValidPos (insertAt b P s).lines ⟨P.line, P.char + s.length⟩ := by
  obtain ⟨h1, h2, h3⟩ := hv
  have hlen := insertAt_length_single b P s ⟨h1, h2, h3⟩ hnl
  have hgl := insertAt_getLine_single b P s ⟨h1, h2, h3⟩ hnl
  constructor
  · refine ⟨h1, ?_, ?_⟩
    · show P.line ≤ (insertAt b P s).lines.length
      omega
    · show P.char ≤ (getLine (insertAt b P s).lines P.line).length
      rw [hgl]
      simp only [List.length_append, List.length_take]
      omega
  · refine ⟨?_, ?_, ?_⟩
    · show 1 ≤ P.line
      exact h1
    · show P.line ≤ (insertAt b P s).lines.length
      omega
    · show P.char + s.length ≤ (getLine (insertAt b P s).lines P.line).length
      rw [hgl]
      simp only [List.length_append, List.length_take]
      omega

/-- The end index the insert bookkeeping computes for a line-break-free
insert: the canonical start string plus " +nc" resolves, on the mutated
buffer, to the position n characters later on the same line. -/
theorem insert_end_single (b : Buf) (P : Position) (s : Str)
    (hv : ValidPos b.lines P) (hnl : '\n' ∉ s) :
    indexResolve (insertAt b P s) (posToChars P ++ plusChars s.length) =
      some ⟨P.line, P.char + s.length⟩ := by
  obtain ⟨hvP, hvE⟩ := valid_insertAt_single b P s hv hnl
  rw [resolve_canon_plus (insertAt b P s) P s.length]
  rw [clampP_valid hvP]
  unfold advChars
  rw [advanceF_within (by
    rw [insertAt_getLine_single b P s hv hnl]
    simp only [List.length_append, List.length_take]
    obtain ⟨h1, h2, h3⟩ := hv
    omega)]

/-- insert with recording on a canonical index string: it always succeeds,
the buffer becomes the splice, and the redo stack and the enabled flag are
untouched (the undo stack may gain or merge an entry). -/
theorem tkinsert_canon_exists (buf : Buf) (us rs : List EditOp) (en : Bool)
    (P : Position) (s : Str)
    (hres : indexResolve buf (posToChars P) = some P) :
    ∃ t1, TkText.insert ⟨buf, us, rs, en⟩ (posToChars P) s true = some t1 ∧
      t1.buf = insertAt buf P s ∧ t1.redoStack = rs ∧ t1.undoEnabled = en := by
  unfold TkText.insert
  rw [hres]
  simp only [Option.bind_eq_bind, Option.some_bind, Bool.true_and]
  cases en with
  | false =>
    rw [if_neg (by simp)]
    exact ⟨_, rfl, rfl, rfl, rfl⟩
  | true =>
    rw [if_pos rfl]
    rw [resolve_canon_plus (insertAt buf P s) P s.length]
    simp only [Option.some_bind]
    rcases us with _ | ⟨op, rest⟩
    · exact ⟨_, rfl, rfl, rfl, rfl⟩
    · cases op with
      | ins vsp vep vs =>
        dsimp only
        by_cases hb1 : vep = posToChars P
        · rw [if_pos hb1]
          exact ⟨_, rfl, rfl, rfl, rfl⟩
        · rw [if_neg hb1]
          by_cases hb2 : vsp = posToChars P
          · rw [if_pos hb2]
            rw [resolve_canon_plus (insertAt buf P s) P (s ++ vs).length]
            simp only [Option.some_bind]
            exact ⟨_, rfl, rfl, rfl, rfl⟩
          · rw [if_neg hb2]
            exact ⟨_, rfl, rfl, rfl, rfl⟩
      | del vsp vep vs =>
        exact ⟨_, rfl, rfl, rfl, rfl⟩
      | sep =>
        exact ⟨_, rfl, rfl, rfl, rfl⟩

/-- del with recording on canonical index strings that resolve to already
valid positions: it succeeds whenever the core deletion does, the buffer
becomes the deletion result, and the redo stack and enabled flag are
untouched. -/
theorem tkdel_canon_exists (buf : Buf) (us rs : List EditOp) (en : Bool)
    (S E : Position) (r : Buf × Str)
    (hres1 : indexResolve buf (posToChars S) = some S)
    (hres2 : indexResolve buf (posToChars E) = some E)
    (hdel : delAt buf S E = some r) :
    ∃ t1, TkText.del ⟨buf, us, rs, en⟩ (posToChars S) (posToChars E) true = some t1 ∧
      t1.buf = r.1 ∧ t1.redoStack = rs ∧ t1.undoEnabled = en := by
  unfold TkText.del
  rw [hres1, hres2]
  simp only [Option.bind_eq_bind, Option.some_bind]
  rw [hdel]
  simp only [Option.some_bind, Bool.true_and]
  cases en with
  | false =>
    rw [if_neg (by simp)]
    exact ⟨_, rfl, rfl, rfl, rfl⟩
  | true =>
    rw [if_pos rfl]
    rcases us with _ | ⟨op, rest⟩
    · exact ⟨_, rfl, rfl, rfl, rfl⟩
    · cases op with
      | ins vsp vep vs =>
        exact ⟨_, rfl, rfl, rfl, rfl⟩
      | del vsp vep vs =>
        dsimp only
        by_cases hb1 : vsp = posToChars S
        · rw [if_pos hb1]
          exact ⟨_, rfl, rfl, rfl, rfl⟩
        · rw [if_neg hb1]
          by_cases hb2 : vsp = posToChars E
          · rw [if_pos hb2]
            exact ⟨_, rfl, rfl, rfl, rfl⟩
          · rw [if_neg hb2]
            exact ⟨_, rfl, rfl, rfl, rfl⟩
      | sep =>
        exact ⟨_, rfl, rfl, rfl, rfl⟩

/-- C8: inserting a nonempty line-break-free text at a valid position P and
then deleting from P to P advanced by the text length restores the buffer
content exactly (through the public Insert and Delete operations). -/
theorem C8_insert_delete_roundtrip (t : TkText) (P : Position) (s : Str)
    (hv : ValidPos t.buf.lines P) (hs : s ≠ []) (hnl : '\n' ∉ s) :
    ∃ t1 t2 : TkText, t.Insert (posToChars P) s = some t1 ∧
      t1.Delete (posToChars P) (posToChars ⟨P.line, P.char + s.length⟩) = some t2 ∧
      t2.buf.lines = t.buf.lines := by
  obtain ⟨buf, us, rs, en⟩ := t
  have hlen : 0 < s.length := List.length_pos.mpr hs
  have hres : indexResolve buf (posToChars P) = some P := C7_index_roundtrip buf P hv
  obtain ⟨t1, ht1, ht1b, ht1r, ht1e⟩ := tkinsert_canon_exists buf us rs en P s hres
  obtain ⟨hvP1, hvE1⟩ := valid_insertAt_single buf P s hv hnl
  have hdel := insertAt_delAt_single buf P s hv hnl
  have hres1 : indexResolve (insertAt buf P s) (posToChars P) = some P :=
    C7_index_roundtrip _ P hvP1
  have hres2 : indexResolve (insertAt buf P s) (posToChars ⟨P.line, P.char + s.length⟩) =
      some ⟨P.line, P.char + s.length⟩ :=
    C7_index_roundtrip _ _ hvE1
  obtain ⟨t2, ht2, ht2b, ht2r, ht2e⟩ := tkdel_canon_exists (insertAt buf P s)
    t1.undoStack [] t1.undoEnabled P ⟨P.line, P.char + s.length⟩ _ hres1 hres2 hdel
  have heta : ({ t1 with redoStack := [] } : TkText) =
      (⟨t1.buf, t1.undoStack, [], t1.undoEnabled⟩ : TkText) := rfl
  refine ⟨{ t1 with redoStack := [] }, { t2 with redoStack := [] }, ?_, ?_, ?_⟩
  · unfold TkText.Insert
    rw [if_pos hs, ht1]
    rfl
  · rw [heta, ht1b]
    unfold TkText.Delete
    rw [hres1, hres2]
    simp only [Option.bind_eq_bind, Option.some_bind]
    rw [if_pos (by simp [comparePos]; omega)]
    rw [ht2]
    rfl
  · show t2.buf.lines = buf.lines
    rw [ht2b]

/-- Witness for C8 on a one-line buffer. -/
theorem C8_insert_delete_roundtrip_witness :
    ∃ t1 t2 : TkText,
      (⟨⟨[['a']], []⟩, [], [], true⟩ : TkText).Insert (posToChars ⟨1, 1⟩) ['x'] = some t1 ∧
      t1.Delete (posToChars ⟨1, 1⟩) (posToChars ⟨1, 1 + (['x'] : Str).length⟩) = some t2 ∧
      t2.buf.lines = (⟨⟨[['a']], []⟩, [], [], true⟩ : TkText).buf.lines :=
  C8_insert_delete_roundtrip ⟨⟨[['a']], []⟩, [], [], true⟩ ⟨1, 1⟩ ['x']
    (by decide) (by decide) (by decide)

theorem insert_coalesce_after (buf : Buf) (rest rs : List EditOp) (idx s : Str)
    (P : Position) (vsp vep vs : Str)
    (hres : indexResolve buf idx = some P) (hs : s ≠ []) (hadj : vep = posToChars P) :
    ∃ ep2, TkText.Insert ⟨buf, .ins vsp vep vs :: rest, rs, true⟩ idx s =
      some ⟨insertAt buf P s, .ins vsp ep2 (vs ++ s) :: rest, [], true⟩ := by
  unfold TkText.Insert TkText.insert
  rw [if_pos hs, hres]
  simp only [Option.bind_eq_bind, Option.some_bind, Bool.true_and]
  rw [if_pos trivial]
  rw [resolve_canon_plus (insertAt buf P s) P s.length]
  simp only [Option.some_bind]
  rw [if_pos hadj]
  exact ⟨_, rfl⟩

theorem insert_coalesce_same_start (buf : Buf) (rest rs : List EditOp) (s : Str)
    (P : Position) (vsp vep vs : Str)
    (hres : indexResolve buf (posToChars P) = some P) (hs : s ≠ [])
    (hne : ¬ vep = posToChars P) (hadj : vsp = posToChars P) :
    ∃ ep2, TkText.Insert ⟨buf, .ins vsp vep vs :: rest, rs, true⟩ (posToChars P) s =
      some ⟨insertAt buf P s, .ins (posToChars P) ep2 (s ++ vs) :: rest, [], true⟩ := by
  unfold TkText.Insert TkText.insert
  rw [if_pos hs, hres]
  simp only [Option.bind_eq_bind, Option.some_bind, Bool.true_and]
  rw [if_pos trivial]
  rw [resolve_canon_plus (insertAt buf P s) P s.length]
  simp only [Option.some_bind]
  rw [if_neg hne, if_pos hadj]
  rw [resolve_canon_plus (insertAt buf P s) P (s ++ vs).length]
  simp only [Option.some_bind]
  exact ⟨_, rfl⟩

theorem delete_coalesce_same_start (buf : Buf) (rest rs : List EditOp)
    (S E : Position) (r : Buf × Str) (vsp vep vs : Str)
    (hres1 : indexResolve buf (posToChars S) = some S)
    (hres2 : indexResolve buf (posToChars E) = some E)
    (hlt : comparePos S E < 0) (hdel : delAt buf S E = some r)
    (hadj : vsp = posToChars S) :
    TkText.Delete ⟨buf, .del vsp vep vs :: rest, rs, true⟩ (posToChars S) (posToChars E) =
      some ⟨r.1, .del (posToChars S) (posToChars E ++ plusChars vs.length) (vs ++ r.2) :: rest,
        [], true⟩ := by
  unfold TkText.Delete TkText.del
  rw [hres1, hres2]
  simp only [Option.bind_eq_bind, Option.some_bind]
  rw [if_pos hlt]
  rw [hdel]
  simp only [Option.some_bind]
  rw [if_pos (by decide : (true && true) = true)]
  rw [if_pos hadj]
  rfl

theorem delete_coalesce_backspace (buf : Buf) (rest rs : List EditOp)
    (S E : Position) (r : Buf × Str) (vsp vep vs : Str)
    (hres1 : indexResolve buf (posToChars S) = some S)
    (hres2 : indexResolve buf (posToChars E) = some E)
    (hlt : comparePos S E < 0) (hdel : delAt buf S E = some r)
    (hne : ¬ vsp = posToChars S) (hadj : vsp = posToChars E) :
    TkText.Delete ⟨buf, .del vsp vep vs :: rest, rs, true⟩ (posToChars S) (posToChars E) =
      some ⟨r.1, .del (posToChars S) (posToChars E ++ plusChars vs.length) (r.2 ++ vs) :: rest,
        [], true⟩ := by
  unfold TkText.Delete TkText.del
  rw [hres1, hres2]
  simp only [Option.bind_eq_bind, Option.some_bind]
  rw [if_pos hlt]
  rw [hdel]
  simp only [Option.some_bind]
  rw [if_pos (by decide : (true && true) = true)]
  rw [if_neg hne, if_pos hadj]
  rfl

/-- C6: a newly recorded edit that is textually adjacent to the top
undo-stack entry of the same kind is merged into that entry instead of being
pushed: an insert whose start string equals the top insertOp's end (or start)
string merges the texts, and a delete whose start string equals the top
deleteOp's start string, or whose end string equals it (backspacing), merges
the captured texts, the merged entry spanning both edits while the rest of
the stack is unchanged; and in the concrete scenario, two sequential
one-character inserts at adjoining positions with no separator are both
reverted by a single EditUndo call, restoring the empty buffer. -/
theorem C6_edit_coalescing :
    (∀ (buf : Buf) (rest rs : List EditOp) (idx s : Str) (P : Position) (vsp vep vs : Str),
      indexResolve buf idx = some P → s ≠ [] → vep = posToChars P →
      ∃ ep2, TkText.Insert ⟨buf, .ins vsp vep vs :: rest, rs, true⟩ idx s =
        some ⟨insertAt buf P s, .ins vsp ep2 (vs ++ s) :: rest, [], true⟩) ∧
    (∀ (buf : Buf) (rest rs : List EditOp) (s : Str) (P : Position) (vsp vep vs : Str),
      indexResolve buf (posToChars P) = some P → s ≠ [] → ¬ vep = posToChars P →
      vsp = posToChars P →
      ∃ ep2, TkText.Insert ⟨buf, .ins vsp vep vs :: rest, rs, true⟩ (posToChars P) s =
        some ⟨insertAt buf P s, .ins (posToChars P) ep2 (s ++ vs) :: rest, [], true⟩) ∧
    (∀ (buf : Buf) (rest rs : List EditOp) (S E : Position) (r : Buf × Str) (vsp vep vs : Str),
      indexResolve buf (posToChars S) = some S → indexResolve buf (posToChars E) = some E →
      comparePos S E < 0 → delAt buf S E = some r → vsp = posToChars S →
      TkText.Delete ⟨buf, .del vsp vep vs :: rest, rs, true⟩ (posToChars S) (posToChars E) =
        some ⟨r.1, .del (posToChars S) (posToChars E ++ plusChars vs.length) (vs ++ r.2) :: rest,
          [], true⟩) ∧
    (∀ (buf : Buf) (rest rs : List EditOp) (S E : Position) (r : Buf × Str) (vsp vep vs : Str),
      indexResolve buf (posToChars S) = some S → indexResolve buf (posToChars E) = some E →
      comparePos S E < 0 → delAt buf S E = some r → ¬ vsp = posToChars S →
      vsp = posToChars E →
      TkText.Delete ⟨buf, .del vsp vep vs :: rest, rs, true⟩ (posToChars S) (posToChars E) =
        some ⟨r.1, .del (posToChars S) (posToChars E ++ plusChars vs.length) (r.2 ++ vs) :: rest,
          [], true⟩) ∧
    ((do
        let t1 ← TkText.mk0.Insert ['1', '.', '0'] ['a']
        let t2 ← t1.Insert ['1', '.', '1'] ['b']
        t2.EditUndo) =
      some (⟨⟨[[]], []⟩, [],
        [.ins ['1', '.', '0'] ['1', '.', '2'] ['a', 'b']], true⟩, true)) :=
  ⟨fun buf rest rs idx s P vsp vep vs h1 h2 h3 =>
      insert_coalesce_after buf rest rs idx s P vsp vep vs h1 h2 h3,
    fun buf rest rs s P vsp vep vs h1 h2 h3 h4 =>
      insert_coalesce_same_start buf rest rs s P vsp vep vs h1 h2 h3 h4,
    fun buf rest rs S E r vsp vep vs h1 h2 h3 h4 h5 =>
      delete_coalesce_same_start buf rest rs S E r vsp vep vs h1 h2 h3 h4 h5,
    fun buf rest rs S E r vsp vep vs h1 h2 h3 h4 h5 h6 =>
      delete_coalesce_backspace buf rest rs S E r vsp vep vs h1 h2 h3 h4 h5 h6,
    by decide⟩

/-- Witness for C6: merging a one-character insert into the adjacent top
entry. -/
theorem C6_edit_coalescing_witness :
    ∃ ep2, TkText.Insert ⟨⟨[['a']], []⟩, [.ins ['1', '.', '0'] ['1', '.', '1'] ['a']], [], true⟩
        ['1', '.', '1'] ['b'] =
      some ⟨insertAt ⟨[['a']], []⟩ ⟨1, 1⟩ ['b'],
        .ins ['1', '.', '0'] ep2 (['a'] ++ ['b']) :: [], [], true⟩ :=
  C6_edit_coalescing.1 ⟨[['a']], []⟩ [] [] ['1', '.', '1'] ['b'] ⟨1, 1⟩
    ['1', '.', '0'] ['1', '.', '1'] ['a'] (by decide) (by decide) (by decide)

/-!  Claim C5: result values of EditUndo and EditRedo, and absence of
failures on well-formed stacks. -/

/-- Strict parser for a plain canonical index string: nonempty digits, a dot,
nonempty digits, nothing else.  This is the shape of every endpoint string
the recording writes for an uncoalesced entry. -/
def canonPair (cs : Str) : Option Position :=
  let d1 := cs.takeWhile (isDigit ·)
  if d1 = [] then none
  else
    match cs.drop d1.length with
    | '.' :: rest2 =>
      let d2 := rest2.takeWhile (isDigit ·)
      if d2 = [] then none
      else if rest2.length = d2.length then some ⟨parseNat d1, parseNat d2⟩
      else none
    | _ => none

/-- A well-formed history entry: separators, or operations whose endpoints
are plain canonical index strings in nondecreasing positional order, as the
recording produces for uncoalesced entries. -/
def opWF : EditOp → Bool
  | EditOp.sep => true
  | EditOp.ins sp ep _ =>
    match canonPair sp, canonPair ep with
    | some p, some q => decide (comparePos p q ≤ 0)
    | _, _ => false
  | EditOp.del sp ep _ =>
    match canonPair sp, canonPair ep with
    | some p, some q => decide (comparePos p q ≤ 0)
    | _, _ => false

/-- Whether the head of a stack is an insert or delete operation. -/
def headIsOp : List EditOp → Bool
  | EditOp.ins _ _ _ :: _ => true
  | EditOp.del _ _ _ :: _ => true
  | _ => false

/-- Whether an EditRedo call on this redo stack replays at least one
operation: the loop skips at most one leading separator and then stops at a
separator or the end. -/
def redoHasOp : List EditOp → Bool
  | [] => false
  | EditOp.sep :: rest => headIsOp rest
  | _ => true

theorem digits_ne_end {d : Str} (_hne : d ≠ []) (hd : ∀ c ∈ d, isDigit c = true) :
    d ≠ ['e', 'n', 'd'] := by
  intro h
  have h2 : isDigit 'e' = true := by
    have h3 := hd 'e'
    rw [h] at h3
    exact h3 (by simp)
  exact absurd h2 (by decide)

/-- parseLineChar on a digit pair with word-boundary-safe remainder. -/
theorem parseLineChar_digits (lines : List Str) (d1 d2 r : Str)
    (h1ne : d1 ≠ []) (h1d : ∀ c ∈ d1, isDigit c = true)
    (h2ne : d2 ≠ []) (h2d : ∀ c ∈ d2, isDigit c = true)
    (hd2tw : (d2 ++ r).takeWhile (fun c => isWordChar c) = d2) :
    parseLineChar lines (d1 ++ '.' :: (d2 ++ r)) =
      some (clampP lines ⟨parseNat d1, parseNat d2⟩, d1.length + 1 + d2.length) := by
  have hd1 : (d1 ++ '.' :: (d2 ++ r)).takeWhile (fun c => isDigit c) = d1 :=
    takeWhile_append_of_forall _ h1d '.' _ (by decide)
  have hdrop : (d1 ++ '.' :: (d2 ++ r)).drop d1.length = '.' :: (d2 ++ r) :=
    drop_append_cons _ _
  unfold parseLineChar
  rw [hd1, if_neg h1ne, hdrop]
  simp only []
  rw [hd2tw, if_neg h2ne]
  unfold clampP
  by_cases hL1 : parseNat d1 < 1
  · rw [if_pos hL1, if_pos hL1]
  · rw [if_neg hL1, if_neg hL1]
    by_cases hL2 : lines.length < parseNat d1
    · rw [if_pos hL2, if_pos hL2]
    · rw [if_neg hL2, if_neg hL2]
      rw [if_neg (digits_ne_end h2ne h2d)]
      rw [if_pos (by rw [List.all_eq_true]; exact h2d)]

/-- Resolving any strict canonical pair string yields its clamp. -/
theorem canonPair_resolve (b : Buf) (cs : Str) (p : Position)
    (h : canonPair cs = some p) : indexResolve b cs = some (clampP b.lines p) := by
  unfold canonPair at h
  by_cases h1 : cs.takeWhile (fun c => isDigit c) = []
  · rw [if_pos h1] at h
    exact absurd h (by simp)
  · rw [if_neg h1] at h
    split at h
    next rest2 heq =>
      by_cases h2 : rest2.takeWhile (fun c => isDigit c) = []
      · rw [if_pos h2] at h
        exact absurd h (by simp)
      · rw [if_neg h2] at h
        by_cases h3 : rest2.length = (rest2.takeWhile (fun c => isDigit c)).length
        · rw [if_pos h3] at h
          have hrest2 : rest2.takeWhile (fun c => isDigit c) = rest2 :=
            List.IsPrefix.eq_of_length (List.takeWhile_prefix _) h3.symm
          have hr2d : ∀ c ∈ rest2, isDigit c = true := by
            intro c hc
            rw [← hrest2] at hc
            exact List.mem_takeWhile_imp hc
          have h1d : ∀ c ∈ cs.takeWhile (fun c => isDigit c), isDigit c = true :=
            fun c hc => List.mem_takeWhile_imp hc
          have hcs : cs = cs.takeWhile (fun c => isDigit c) ++ '.' :: rest2 := by
            conv_lhs => rw [← List.take_append_drop
              (cs.takeWhile (fun c => isDigit c)).length cs]
            rw [heq]
            rw [← List.prefix_iff_eq_take.mp (List.takeWhile_prefix _)]
          have htw : (rest2 ++ []).takeWhile (fun c => isWordChar c) = rest2 := by
            rw [List.append_nil]
            exact takeWhile_of_forall rest2
              (fun c hc => isWordChar_of_isDigit (hr2d c hc))
          have hplc := parseLineChar_digits b.lines (cs.takeWhile (fun c => isDigit c))
            rest2 [] h1 h1d (by rw [← hrest2]; exact h2) hr2d htw
          rw [List.append_nil] at hplc
          rw [← hcs] at hplc
          have hp : p = ⟨parseNat (cs.takeWhile (fun c => isDigit c)), parseNat rest2⟩ := by
            rw [← Option.some_inj.mp h, hrest2]
          have hdropall : cs.drop ((cs.takeWhile (fun c => isDigit c)).length + 1
              + rest2.length) = [] := by
            rw [List.drop_eq_nil_iff]
            conv_lhs => rw [hcs]
            simp
            omega
          unfold indexResolve
          rw [hplc]
          simp only []
          rw [hdropall, resolveMods_nil, hp]
        · rw [if_neg h3] at h
          exact absurd h (by simp)
    next =>
      exact absurd h (by simp)

theorem getLine_len_lastLine : ∀ (l : List Str), l ≠ [] → getLine l l.length = lastLine l := by
  intro l
  induction l with
  | nil => intro h; exact absurd rfl h
  | cons x xs ih =>
    intro _
    cases xs with
    | nil => rfl
    | cons y ys =>
      have h2 := ih (by simp)
      unfold getLine lastLine at *
      rw [getLastD_cons_cons]
      simp only [List.length_cons] at *
      rw [show ys.length + 1 + 1 - 1 = ys.length + 1 from by omega]
      rw [List.getD_cons_succ]
      rw [show ys.length + 1 - 1 = ys.length from by omega] at h2
      exact h2

/-- Clamping is monotone in the position order. -/
theorem clampP_mono (lines : List Str) (hb : lines ≠ []) {p q : Position}
    (h : comparePos p q ≤ 0) : comparePos (clampP lines p) (clampP lines q) ≤ 0 := by
  obtain ⟨pl, pc⟩ := p
  obtain ⟨ql, qc⟩ := q
  have hlen : 1 ≤ lines.length := List.length_pos.mpr hb
  have hll := getLine_len_lastLine lines hb
  rw [comparePos_le_zero_iff] at h
  simp only at h
  unfold clampP
  dsimp only
  by_cases hp1 : pl < 1
  · rw [if_pos hp1]
    by_cases hq1 : ql < 1
    · rw [if_pos hq1]
      rw [comparePos_le_zero_iff]
      dsimp only
      omega
    · rw [if_neg hq1]
      by_cases hq2 : lines.length < ql
      · rw [if_pos hq2]
        rw [comparePos_le_zero_iff]
        dsimp only
        omega
      · rw [if_neg hq2]
        rw [comparePos_le_zero_iff]
        dsimp only
        omega
  · rw [if_neg hp1]
    by_cases hp2 : lines.length < pl
    · rw [if_pos hp2]
      have hq1 : ¬ ql < 1 := by omega
      have hq2 : lines.length < ql := by omega
      rw [if_neg hq1, if_pos hq2]
      rw [comparePos_le_zero_iff]
      dsimp only
      omega
    · rw [if_neg hp2]
      by_cases hq1 : ql < 1
      · omega
      · rw [if_neg hq1]
        by_cases hq2 : lines.length < ql
        · rw [if_pos hq2]
          rw [comparePos_le_zero_iff]
          dsimp only
          by_cases hpl : pl = lines.length
          · right
            subst hpl
            rw [hll]
            exact ⟨rfl, min_le_right _ _⟩
          · left
            omega
        · rw [if_neg hq2]
          rw [comparePos_le_zero_iff]
          dsimp only
          rcases h with h | ⟨heq, hle⟩
          · left
            exact h
          · right
            subst heq
            exact ⟨rfl, by omega⟩

theorem spliceSegs_ne_nil (pre suf : Str) (segs : List Str) :
    spliceSegs pre suf segs ≠ [] := by
  match segs with
  | [] => simp [spliceSegs]
  | [a] => simp [spliceSegs]
  | a :: b :: rest => simp [spliceSegs]

theorem insertAt_lines_ne_nil (b : Buf) (P : Position) (s : Str) :
    (insertAt b P s).lines ≠ [] := by
  unfold insertAt
  intro hcon
  rw [List.append_eq_nil, List.append_eq_nil] at hcon
  exact spliceSegs_ne_nil _ _ _ hcon.1.2

theorem delAt_lines_ne_nil (b : Buf) (hb : b.lines ≠ []) (S E : Position) (r : Buf × Str)
    (h : delAt b S E = some r) : r.1.lines ≠ [] := by
  unfold delAt at h
  split at h
  · exact absurd h (by simp)
  · have hr := Option.some_inj.mp h
    rw [← hr]
    by_cases hrev : E.line < S.line
    · rw [if_pos hrev]
      exact hb
    · rw [if_neg hrev]
      simp


theorem bufInsert_wf (b : Buf) (sp : Str) (p : Position) (s : Str)
    (h1 : canonPair sp = some p) :
    ∃ b2, bufInsert b sp s = some b2 ∧ b2.lines ≠ [] := by
  unfold bufInsert
  rw [canonPair_resolve b sp p h1]
  exact ⟨_, rfl, insertAt_lines_ne_nil _ _ _⟩

theorem bufDel_wf (b : Buf) (hb : b.lines ≠ []) (sp ep : Str) (p q : Position)
    (h1 : canonPair sp = some p) (h2 : canonPair ep = some q)
    (hle : comparePos p q ≤ 0) :
    ∃ b2, bufDel b sp ep = some b2 ∧ b2.lines ≠ [] := by
  unfold bufDel
  rw [canonPair_resolve b sp p h1, canonPair_resolve b ep q h2]
  simp only [Option.bind_eq_bind, Option.some_bind]
  have hcle := clampP_mono b.lines hb hle
  have hguard : ¬((clampP b.lines p).line = (clampP b.lines q).line ∧
      (clampP b.lines q).char < (clampP b.lines p).char) := by
    rw [comparePos_le_zero_iff] at hcle
    omega
  have hdel : ∃ r, delAt b (clampP b.lines p) (clampP b.lines q) = some r := by
    unfold delAt
    rw [if_neg hguard]
    exact ⟨_, rfl⟩
  obtain ⟨r, hdel⟩ := hdel
  rw [hdel]
  simp only [Option.some_bind]
  exact ⟨r.1, rfl, delAt_lines_ne_nil b hb _ _ _ hdel⟩

theorem opWF_ins (sp ep s : Str) (hwfop : opWF (EditOp.ins sp ep s) = true) :
    ∃ p q, canonPair sp = some p ∧ canonPair ep = some q ∧ comparePos p q ≤ 0 := by
  simp only [opWF] at hwfop
  rcases hp : canonPair sp with _ | p <;> rcases hq : canonPair ep with _ | q <;>
    rw [hp, hq] at hwfop
  · exact absurd hwfop (by simp)
  · exact absurd hwfop (by simp)
  · exact absurd hwfop (by simp)
  · exact ⟨p, q, rfl, rfl, of_decide_eq_true hwfop⟩

theorem opWF_del (sp ep s : Str) (hwfop : opWF (EditOp.del sp ep s) = true) :
    ∃ p q, canonPair sp = some p ∧ canonPair ep = some q ∧ comparePos p q ≤ 0 := by
  simp only [opWF] at hwfop
  rcases hp : canonPair sp with _ | p <;> rcases hq : canonPair ep with _ | q <;>
    rw [hp, hq] at hwfop
  · exact absurd hwfop (by simp)
  · exact absurd hwfop (by simp)
  · exact absurd hwfop (by simp)
  · exact ⟨p, q, rfl, rfl, of_decide_eq_true hwfop⟩

theorem editUndoAux_wf :
    ∀ (stack redo : List EditOp) (b : Buf) (i : Nat),
      (∀ op ∈ stack, opWF op = true) → b.lines ≠ [] →
      ∃ b2 u r j, editUndoAux stack redo b i = some (b2, u, r, j) ∧ i ≤ j ∧
        (stack = [] → j = i) ∧ (i = 0 → stack ≠ [] → 1 ≤ j) := by
  intro stack
  induction stack with
  | nil =>
    intro redo b i _ _
    exact ⟨b, [], redo, i, rfl, Nat.le_refl i, fun _ => rfl, fun _ hne => absurd rfl hne⟩
  | cons op rest ih =>
    intro redo b i hwf hb
    have hwfrest : ∀ o ∈ rest, opWF o = true := fun o ho => hwf o (by simp [ho])
    have hwfop := hwf op (by simp)
    cases op with
    | sep =>
      by_cases hi : i ≠ 0
      · refine ⟨b, EditOp.sep :: rest, redo, i, ?_, Nat.le_refl i,
          fun hcon => by simp at hcon, fun h0 => absurd h0 hi⟩
        unfold editUndoAux
        dsimp only
        rw [if_pos hi]
      · push_neg at hi
        subst hi
        obtain ⟨b2, u, r, j, haux, hj, _, _⟩ := ih (EditOp.sep :: redo) b 1 hwfrest hb
        refine ⟨b2, u, r, j, ?_, by omega, fun hcon => by simp at hcon, fun _ _ => by omega⟩
        unfold editUndoAux
        dsimp only
        rw [if_neg (by omega)]
        exact haux
    | ins sp ep s =>
      obtain ⟨p, q, hp, hq, hle⟩ := opWF_ins sp ep s hwfop
      obtain ⟨b1, hb1, hb1ne⟩ := bufDel_wf b hb sp ep p q hp hq hle
      obtain ⟨b2, u, r, j, haux, hj, _, _⟩ := ih (EditOp.ins sp ep s :: redo) b1 (i + 1)
        hwfrest hb1ne
      refine ⟨b2, u, r, j, ?_, by omega, fun hcon => by simp at hcon, fun _ _ => by omega⟩
      unfold editUndoAux
      dsimp only
      rw [hb1]
      simp only [Option.bind_eq_bind, Option.some_bind]
      exact haux
    | del sp ep s =>
      obtain ⟨p, q, hp, hq, hle⟩ := opWF_del sp ep s hwfop
      obtain ⟨b1, hb1, hb1ne⟩ := bufInsert_wf b sp p s hp
      obtain ⟨b2, u, r, j, haux, hj, _, _⟩ := ih (EditOp.del sp ep s :: redo) b1 (i + 1)
        hwfrest hb1ne
      refine ⟨b2, u, r, j, ?_, by omega, fun hcon => by simp at hcon, fun _ _ => by omega⟩
      unfold editUndoAux
      dsimp only
      rw [hb1]
      simp only [Option.bind_eq_bind, Option.some_bind]
      exact haux

theorem editRedoAux_wf :
    ∀ (stack undo : List EditOp) (b : Buf) (i : Nat) (redone : Bool),
      (∀ op ∈ stack, opWF op = true) → b.lines ≠ [] →
      ∃ b2 u r f, editRedoAux stack undo b i redone = some (b2, u, r, f) ∧
        (redone = true → f = true) ∧
        (redone = false → i ≠ 0 → f = headIsOp stack) ∧
        (redone = false → i = 0 → f = redoHasOp stack) := by
  intro stack
  induction stack with
  | nil =>
    intro undo b i redone _ _
    exact ⟨b, undo, [], redone, rfl, fun h => h, fun h _ => h, fun h _ => h⟩
  | cons op rest ih =>
    intro undo b i redone hwf hb
    have hwfrest : ∀ o ∈ rest, opWF o = true := fun o ho => hwf o (by simp [ho])
    have hwfop := hwf op (by simp)
    cases op with
    | sep =>
      by_cases hi : i ≠ 0
      · refine ⟨b, undo, EditOp.sep :: rest, redone, ?_, fun h => h, fun h _ => h,
          fun _ h0 => absurd h0 hi⟩
        unfold editRedoAux
        dsimp only
        rw [if_pos hi]
      · push_neg at hi
        subst hi
        obtain ⟨b2, u, r, f, haux, hmono, hio, _⟩ :=
          ih (EditOp.sep :: undo) b 1 redone hwfrest hb
        refine ⟨b2, u, r, f, ?_, hmono, fun hr h0 => absurd rfl h0, fun hr _ => ?_⟩
        · unfold editRedoAux
          dsimp only
          rw [if_neg (by omega)]
          exact haux
        · exact hio hr (by omega)
    | ins sp ep s =>
      obtain ⟨p, _q, hp, _hq, _hle⟩ := opWF_ins sp ep s hwfop
      obtain ⟨b1, hb1, hb1ne⟩ := bufInsert_wf b sp p s hp
      obtain ⟨b2, u, r, f, haux, hmono, _, _⟩ :=
        ih (EditOp.ins sp ep s :: undo) b1 (i + 1) true hwfrest hb1ne
      have hf : f = true := hmono rfl
      refine ⟨b2, u, r, f, ?_, fun _ => hf, fun _ _ => hf, fun _ _ => hf⟩
      unfold editRedoAux
      dsimp only
      rw [hb1]
      simp only [Option.bind_eq_bind, Option.some_bind]
      exact haux
    | del sp ep s =>
      obtain ⟨p, q, hp, hq, hle⟩ := opWF_del sp ep s hwfop
      obtain ⟨b1, hb1, hb1ne⟩ := bufDel_wf b hb sp ep p q hp hq hle
      obtain ⟨b2, u, r, f, haux, hmono, _, _⟩ :=
        ih (EditOp.del sp ep s :: undo) b1 (i + 1) true hwfrest hb1ne
      have hf : f = true := hmono rfl
      refine ⟨b2, u, r, f, ?_, fun _ => hf, fun _ _ => hf, fun _ _ => hf⟩
      unfold editRedoAux
      dsimp only
      rw [hb1]
      simp only [Option.bind_eq_bind, Option.some_bind]
      exact haux

/-- C5: amended.  With undo enabled and a nonempty buffer, on stacks of
well-formed entries neither EditUndo nor EditRedo fails; EditUndo returns
true iff the undo stack is nonempty — a popped lone separator counts even
though no operation is reverted — and EditRedo returns true iff the redo
loop actually replays an insert or delete operation (redoHasOp), which is
not the same as the redo stack being nonempty. -/
theorem C5_undo_redo_flags (t : TkText)
    (hen : t.undoEnabled = true) (hb : t.buf.lines ≠ [])
    (hu : ∀ op ∈ t.undoStack, opWF op = true)
    (hr : ∀ op ∈ t.redoStack, opWF op = true) :
    (∃ t2 r, t.EditUndo = some (t2, r) ∧ (r = true ↔ t.undoStack ≠ [])) ∧
    (∃ t2 r, t.EditRedo = some (t2, r) ∧
      (r = true ↔ redoHasOp t.redoStack = true)) := by
  constructor
  · unfold TkText.EditUndo
    rw [hen]
    rw [if_neg (by simp)]
    obtain ⟨b2, u, r, j, haux, _, hnil, hpos⟩ :=
      editUndoAux_wf t.undoStack t.redoStack t.buf 0 hu hb
    refine ⟨{ buf := b2, undoStack := u, redoStack := r, undoEnabled := true },
      decide (0 < j), by rw [haux], ?_⟩
    rw [decide_eq_true_iff]
    constructor
    · intro hj0 hstack
      have := hnil hstack
      omega
    · intro hstack
      exact hpos rfl hstack
  · unfold TkText.EditRedo
    rw [hen]
    rw [if_neg (by simp)]
    obtain ⟨b2, u, r, f, haux, _, _, hzero⟩ :=
      editRedoAux_wf t.redoStack t.undoStack t.buf 0 false hr hb
    have hf : f = redoHasOp t.redoStack := hzero rfl rfl
    refine ⟨{ buf := b2, undoStack := u, redoStack := r, undoEnabled := true }, f,
      by rw [haux], ?_⟩
    rw [hf]

theorem C5_undo_redo_flags_witness :
    (∃ t2 r, TkText.EditUndo ⟨⟨[['a']], []⟩,
        [EditOp.ins ['1', '.', '0'] ['1', '.', '1'] ['a']], [EditOp.sep],
        true⟩ = some (t2, r) ∧
      (r = true ↔ [EditOp.ins ['1', '.', '0'] ['1', '.', '1'] ['a']] ≠
        ([] : List EditOp))) ∧
    (∃ t2 r, TkText.EditRedo ⟨⟨[['a']], []⟩,
        [EditOp.ins ['1', '.', '0'] ['1', '.', '1'] ['a']], [EditOp.sep],
        true⟩ = some (t2, r) ∧
      (r = true ↔ redoHasOp [EditOp.sep] = true)) :=
  C5_undo_redo_flags
    ⟨⟨[['a']], []⟩, [EditOp.ins ['1', '.', '0'] ['1', '.', '1'] ['a']],
      [EditOp.sep], true⟩
    rfl (by decide) (by decide) (by decide)
theorem insert_del_insert_mark (P : Position) (L : Nat) (hL : 1 ≤ L) (m : Mark) :
    insertAdjustMark P 1 L L
      (delAdjustMark P ⟨P.line, P.char + L⟩ (insertAdjustMark P 1 L L m)) =
    insertAdjustMark P 1 L L m := by
  obtain ⟨⟨ml, mc⟩, g⟩ := m
  obtain ⟨pl, pc⟩ := P
  by_cases h1 : pl < ml
  · have hi : insertAdjustMark ⟨pl, pc⟩ 1 L L ⟨⟨ml, mc⟩, g⟩ = ⟨⟨ml, mc⟩, g⟩ := by
      unfold insertAdjustMark
      rw [if_pos h1]
      simp only [Mark.mk.injEq, Position.mk.injEq, eq_self_iff_true, and_true, true_and]
      omega
    have hd : delAdjustMark ⟨pl, pc⟩ ⟨pl, pc + L⟩ ⟨⟨ml, mc⟩, g⟩ = ⟨⟨ml, mc⟩, g⟩ := by
      unfold delAdjustMark
      rw [if_pos (by rw [comparePos_le_zero_iff]; exact Or.inl h1)]
      rw [if_neg (by rw [comparePos_le_zero_iff]; dsimp only; omega)]
      rw [if_neg (by dsimp only; omega)]
      simp only [Mark.mk.injEq, Position.mk.injEq, eq_self_iff_true, and_true, true_and]
      omega
    rw [hi, hd, hi]
  · by_cases h2 : ml = pl ∧ pc ≤ mc
    · by_cases h3 : g = Gravity.Right ∨ pc < mc
      · have hi : insertAdjustMark ⟨pl, pc⟩ 1 L L ⟨⟨ml, mc⟩, g⟩ = ⟨⟨ml, mc + L⟩, g⟩ := by
          unfold insertAdjustMark
          rw [if_neg h1, if_pos h2, if_pos h3, if_pos rfl]
          simp only [Mark.mk.injEq, Position.mk.injEq, eq_self_iff_true, and_true, true_and]
          omega
        rw [hi]
        by_cases hmc : mc ≤ pc
        · have hmceq : mc = pc := by omega
          have hd : delAdjustMark ⟨pl, pc⟩ ⟨pl, pc + L⟩ ⟨⟨ml, mc + L⟩, g⟩ =
              ⟨⟨pl, pc⟩, g⟩ := by
            unfold delAdjustMark
            rw [if_pos (by rw [comparePos_le_zero_iff]; dsimp only; omega)]
            rw [if_pos (by rw [comparePos_le_zero_iff]; dsimp only; omega)]
          have hg : g = Gravity.Right := by
            rcases h3 with h3 | h3
            · exact h3
            · omega
          have hi2 : insertAdjustMark ⟨pl, pc⟩ 1 L L ⟨⟨pl, pc⟩, g⟩ = ⟨⟨pl, pc + L⟩, g⟩ := by
            unfold insertAdjustMark
            rw [if_neg (by dsimp only; omega), if_pos ⟨rfl, Nat.le_refl pc⟩,
              if_pos (Or.inl hg), if_pos rfl]
            simp only [Mark.mk.injEq, Position.mk.injEq, eq_self_iff_true, and_true, true_and]
            omega
          rw [hd, hi2]
          simp only [Mark.mk.injEq, Position.mk.injEq, eq_self_iff_true, and_true, true_and]
          omega
        · have hd : delAdjustMark ⟨pl, pc⟩ ⟨pl, pc + L⟩ ⟨⟨ml, mc + L⟩, g⟩ =
              ⟨⟨ml, mc⟩, g⟩ := by
            unfold delAdjustMark
            rw [if_pos (by rw [comparePos_le_zero_iff]; dsimp only; omega)]
            rw [if_neg (by rw [comparePos_le_zero_iff]; dsimp only; omega)]
            rw [if_pos (by dsimp only; exact ⟨h2.1, rfl⟩)]
            simp only [Mark.mk.injEq, Position.mk.injEq, eq_self_iff_true, and_true, true_and]
            omega
          rw [hd, hi]
      · have hi : insertAdjustMark ⟨pl, pc⟩ 1 L L ⟨⟨ml, mc⟩, g⟩ = ⟨⟨ml, mc⟩, g⟩ := by
          unfold insertAdjustMark
          rw [if_neg h1, if_pos h2, if_neg h3]
          simp only [Mark.mk.injEq, Position.mk.injEq, eq_self_iff_true, and_true, true_and]
          omega
        have hmceq : mc = pc := by
          rcases h2 with ⟨hml, hpc⟩
          rcases not_or.mp h3 with ⟨_, hnc⟩
          omega
        have hd : delAdjustMark ⟨pl, pc⟩ ⟨pl, pc + L⟩ ⟨⟨ml, mc⟩, g⟩ = ⟨⟨pl, pc⟩, g⟩ := by
          unfold delAdjustMark
          rw [if_pos (by rw [comparePos_le_zero_iff]; dsimp only; omega)]
          rw [if_pos (by rw [comparePos_le_zero_iff]; dsimp only; omega)]
        have hi2 : insertAdjustMark ⟨pl, pc⟩ 1 L L ⟨⟨pl, pc⟩, g⟩ = ⟨⟨pl, pc⟩, g⟩ := by
          unfold insertAdjustMark
          rw [if_neg (by dsimp only; omega), if_pos ⟨rfl, Nat.le_refl pc⟩]
          rw [if_neg (by
            intro hcon
            rcases hcon with hcon | hcon
            · exact (not_or.mp h3).1 hcon
            · dsimp only at hcon
              omega)]
          simp only [Mark.mk.injEq, Position.mk.injEq, eq_self_iff_true, and_true, true_and]
          omega
        rw [hi, hd, hi2]
        simp only [Mark.mk.injEq, Position.mk.injEq, eq_self_iff_true, and_true, true_and]
        omega
    · have hi : insertAdjustMark ⟨pl, pc⟩ 1 L L ⟨⟨ml, mc⟩, g⟩ = ⟨⟨ml, mc⟩, g⟩ := by
        unfold insertAdjustMark
        rw [if_neg h1, if_neg h2]
      have hd : delAdjustMark ⟨pl, pc⟩ ⟨pl, pc + L⟩ ⟨⟨ml, mc⟩, g⟩ = ⟨⟨ml, mc⟩, g⟩ := by
        unfold delAdjustMark
        rw [if_neg (by
          rw [comparePos_le_zero_iff]
          dsimp only
          rw [not_and] at h2
          intro hcon
          rcases hcon with hcon | ⟨hcon1, hcon2⟩
          · exact h1 hcon
          · exact h2 hcon1.symm hcon2)]
      rw [hi, hd, hi]

theorem insertAt_twice_marks (buf : Buf) (P : Position) (s : Str)
    (hnl : '\n' ∉ s) (hs : s ≠ []) :
    insertAt ⟨buf.lines, (insertAt buf P s).marks.map
        (fun kv => (kv.1, delAdjustMark P ⟨P.line, P.char + s.length⟩ kv.2))⟩ P s =
      insertAt buf P s := by
  have hL : 1 ≤ s.length := List.length_pos.mpr hs
  unfold insertAt
  rw [splitLines_eq_single hnl]
  dsimp only
  congr 1
  rw [List.map_map, List.map_map]
  apply List.map_congr_left
  intro kv _
  dsimp only [Function.comp]
  rw [show ([s] : List Str).getLastD [] = s from rfl]
  exact congrArg (fun m => (kv.1, m)) (insert_del_insert_mark P s.length hL kv.2)

theorem tkinsert_fresh (buf : Buf) (us rs : List EditOp) (idx : Str) (P : Position) (s : Str)
    (hres : indexResolve buf idx = some P)
    (hv : ValidPos buf.lines P) (hnl : '\n' ∉ s)
    (hus : us = [] ∨ ∃ rest, us = EditOp.sep :: rest) :
    TkText.insert ⟨buf, us, rs, true⟩ idx s true =
      some ⟨insertAt buf P s,
        EditOp.ins (posToChars P) (posToChars ⟨P.line, P.char + s.length⟩) s :: us,
        rs, true⟩ := by
  unfold TkText.insert
  rw [hres]
  simp only [Option.bind_eq_bind, Option.some_bind]
  rw [if_pos (by decide : (true && true) = true)]
  rw [insert_end_single buf P s hv hnl]
  simp only [Option.bind_eq_bind, Option.some_bind]
  rcases hus with h0 | ⟨rest, hrest⟩
  · rw [h0]
    rfl
  · rw [hrest]
    rfl

/-- C3: amended.  The original claim fails in general (a multi-line undone
insert readjusts marks with the line-only rule, dropping the char shift, and
a multi-entry undo group replays further than the redo that follows).  In
the amended form it holds: starting from a state with undo enabled whose
undo stack is empty or has a separator on top, an effective Insert of text
with no line break at a valid resolved position, followed by EditUndo and
then EditRedo, reproduces the exact post-insert buffer — both the line
content and every mark position. -/
theorem C3_insert_undo_redo (t : TkText) (idx s : Str) (P : Position)
    (hen : t.undoEnabled = true)
    (hus : t.undoStack = [] ∨ ∃ rest, t.undoStack = EditOp.sep :: rest)
    (hres : indexResolve t.buf idx = some P)
    (hv : ValidPos t.buf.lines P)
    (hs : s ≠ []) (hnl : '\n' ∉ s) :
    ∃ t1 t2 t3, t.Insert idx s = some t1 ∧
      t1.EditUndo = some (t2, true) ∧
      t2.EditRedo = some (t3, true) ∧
      t3.buf = t1.buf := by
  have ht : t = ⟨t.buf, t.undoStack, t.redoStack, true⟩ := by rw [← hen]
  obtain ⟨hvP1, hvE1⟩ := valid_insertAt_single t.buf P s hv hnl
  set buf1 := insertAt t.buf P s with hbuf1
  set sp := posToChars P with hsp
  set ep := posToChars (⟨P.line, P.char + s.length⟩ : Position) with hep
  set b1 : Buf := ⟨t.buf.lines, buf1.marks.map
    (fun kv => (kv.1, delAdjustMark P ⟨P.line, P.char + s.length⟩ kv.2))⟩ with hb1
  have hins := tkinsert_fresh t.buf t.undoStack t.redoStack idx P s hres hv hnl hus
  have hInsert : t.Insert idx s =
      some ⟨buf1, EditOp.ins sp ep s :: t.undoStack, [], true⟩ := by
    rw [ht]
    unfold TkText.Insert
    rw [if_pos hs]
    simp only [Option.bind_eq_bind]
    rw [hins]
    simp only [Option.some_bind]
    rfl
  have hresP1 : indexResolve buf1 sp = some P := by
    rw [hsp, indexResolve_posToChars, clampP_valid hvP1]
  have hresE1 : indexResolve buf1 ep = some ⟨P.line, P.char + s.length⟩ := by
    rw [hep, indexResolve_posToChars, clampP_valid hvE1]
  have hdel : delAt buf1 P ⟨P.line, P.char + s.length⟩ = some (b1, s) :=
    insertAt_delAt_single t.buf P s hv hnl
  have hbufDel : bufDel buf1 sp ep = some b1 := by
    unfold bufDel
    rw [hresP1, hresE1]
    simp only [Option.bind_eq_bind, Option.some_bind]
    rw [hdel]
    rfl
  have haux : editUndoAux (EditOp.ins sp ep s :: t.undoStack) [] buf1 0 =
      some (b1, t.undoStack, [EditOp.ins sp ep s], 1) := by
    unfold editUndoAux
    dsimp only
    rw [hbufDel]
    simp only [Option.bind_eq_bind, Option.some_bind]
    rcases hus with h0 | ⟨rest, hrest⟩
    · rw [h0]
      rfl
    · rw [hrest]
      unfold editUndoAux
      dsimp only
      rw [if_pos (by omega : (1 : Nat) ≠ 0)]
  have hundo : TkText.EditUndo ⟨buf1, EditOp.ins sp ep s :: t.undoStack, [], true⟩ =
      some (⟨b1, t.undoStack, [EditOp.ins sp ep s], true⟩, true) := by
    unfold TkText.EditUndo
    rw [if_neg (by simp)]
    dsimp only
    rw [haux]
    rfl
  have hresP2 : indexResolve b1 sp = some P := by
    rw [hsp, indexResolve_posToChars]
    exact congrArg some (clampP_valid hv)
  have hbufIns : bufInsert b1 sp s = some (insertAt b1 P s) := by
    unfold bufInsert
    rw [hresP2]
    rfl
  have hraux : editRedoAux [EditOp.ins sp ep s] t.undoStack b1 0 false =
      some (insertAt b1 P s, EditOp.ins sp ep s :: t.undoStack, [], true) := by
    unfold editRedoAux
    dsimp only
    rw [hbufIns]
    simp only [Option.bind_eq_bind, Option.some_bind]
    rfl
  have htwice : insertAt b1 P s = buf1 := insertAt_twice_marks t.buf P s hnl hs
  have hredo : TkText.EditRedo ⟨b1, t.undoStack, [EditOp.ins sp ep s], true⟩ =
      some (⟨insertAt b1 P s, EditOp.ins sp ep s :: t.undoStack, [], true⟩, true) := by
    unfold TkText.EditRedo
    rw [if_neg (by simp)]
    dsimp only
    rw [hraux]
  exact ⟨_, _, _, hInsert, hundo, hredo, htwice⟩

theorem C3_insert_undo_redo_witness :
    ∃ t1 t2 t3,
      TkText.Insert ⟨⟨[[]], [(['m'], ⟨⟨1, 0⟩, Gravity.Right⟩)]⟩, [], [], true⟩
        ['1', '.', '0'] ['a', 'b'] = some t1 ∧
      t1.EditUndo = some (t2, true) ∧
      t2.EditRedo = some (t3, true) ∧
      t3.buf = t1.buf :=
  C3_insert_undo_redo ⟨⟨[[]], [(['m'], ⟨⟨1, 0⟩, Gravity.Right⟩)]⟩, [], [], true⟩
    ['1', '.', '0'] ['a', 'b'] ⟨1, 0⟩ rfl (Or.inl rfl) (by decide) (by decide)
    (by decide) (by decide)
